import Mathlib

/-!
# Verification of the BAR backup/restore script (src/BAR.py)

This file gives a shallow embedding of the core logic of `src/BAR.py`
(an OBS Studio backup & restore plugin) and proves / refutes the frozen
claims about it.

Modelling conventions:

* A directory tree (the OBS config root, a backup bundle, a local
  restore source) is an `Fs` value: a file carries its content (bytes
  as `List Nat`), a directory carries a list of named children in
  directory order.
* Relative paths (`rel = p.relative_to(cfg).as_posix()` in the source)
  are modelled as lists of path components (`List String`).  On a real
  filesystem a name is nonempty and contains no `/`, so the POSIX
  string form and the component list are in bijection; the source's
  string tests translate as: `rel == ex` becomes list equality,
  `rel.startswith(ex.rstrip("/") + "/")` becomes strict list prefix,
  and `d == ex` becomes `[d] = ex`.
* Python string arithmetic in the remote-restore path (slicing by
  `len(...) + 1`) is modelled on `List Char`, matching Python's
  code-point string model; see the remote-restore section.
* Fallible Python code is embedded as `Except String` values, the
  string being the exception message.
-/

/-- Bytes of a file, one `Nat` per byte. -/
abbrev Bytes := List Nat

/-- A filesystem node: a file with contents, or a directory with an
ordered list of named children (files and subdirectories share one
namespace, as on a real filesystem). -/
inductive Fs where
  | file (content : Bytes)
  | dir (children : List (String × Fs))

namespace Fs

/-- `Path.is_dir()` on a node. -/
def isDir : Fs → Bool
  | .file _ => false
  | .dir _ => true

mutual

/-- Induction over `Fs` that hands the inductive hypothesis to every
child of a directory. -/
theorem inductionOn {motive : Fs → Prop}
    (hfile : ∀ c, motive (.file c))
    (hdir : ∀ ch, (∀ e ∈ ch, motive e.2) → motive (.dir ch)) :
    ∀ t, motive t
  | .file c => hfile c
  | .dir ch => hdir ch (inductionOnChildren hfile hdir ch)

theorem inductionOnChildren {motive : Fs → Prop}
    (hfile : ∀ c, motive (.file c))
    (hdir : ∀ ch, (∀ e ∈ ch, motive e.2) → motive (.dir ch)) :
    ∀ ch : List (String × Fs), ∀ e ∈ ch, motive e.2
  | [], e, he => absurd he (List.not_mem_nil e)
  | (n, t) :: rest, e, he => by
    rcases List.mem_cons.mp he with h | h
    · subst h; exact inductionOn hfile hdir t
    · exact inductionOnChildren hfile hdir rest e h

end

mutual

/-- Sibling-name wellformedness: on a real filesystem the entries of a
directory carry pairwise distinct names. -/
def wf : Fs → Bool
  | .file _ => true
  | .dir ch => decide ((ch.map Prod.fst).Nodup) && wfChildren ch

/-- `wf` for every child of a directory. -/
def wfChildren : List (String × Fs) → Bool
  | [] => true
  | (_, t) :: rest => wf t && wfChildren rest

end

theorem wfChildren_iff : ∀ ch : List (String × Fs),
    wfChildren ch = true ↔ ∀ e ∈ ch, wf e.2 = true := by
  intro ch
  induction ch with
  | nil => simp [wfChildren]
  | cons e rest ih =>
    obtain ⟨n, t⟩ := e
    simp [wfChildren, ih]

theorem wf_dir {ch : List (String × Fs)} :
    wf (.dir ch) = true ↔ (ch.map Prod.fst).Nodup ∧ ∀ e ∈ ch, wf e.2 = true := by
  simp [wf, wfChildren_iff]

end Fs

/-! ## The file-tree walker (`_excluded_dirs`, `iter_obs_files`) -/

/-- Python `s.startswith(p)`: Python strings are sequences of code
points, so this is list-prefix on the code points. -/
def pyStartsWith (p s : String) : Bool := p.data.isPrefixOf s.data

/-- Python `s.endswith(p)`: list-suffix on the code points. -/
def pyEndsWith (p s : String) : Bool := p.data.isSuffixOf s.data

/-- `_excluded_dirs(include_logs, include_cache)` from the source,
with each entry as a component list.  The source builds a Python set
`{"crashes", "plugin_config/cef_cache", "cache"}`, adds `"logs"` when
logs are not included, and discards the two cache entries when caches
are included; here the set is a list. -/
def excludedDirs (includeLogs includeCache : Bool) : List (List String) :=
  let base := [["crashes"], ["plugin_config", "cef_cache"], ["cache"]]
  let withLogs := if includeLogs then base else base ++ [["logs"]]
  if includeCache then
    withLogs.filter (fun ex => ex ≠ ["cache"] ∧ ex ≠ ["plugin_config", "cef_cache"])
  else withLogs

/-- The per-directory pruning test of `iter_obs_files`: a directory
named `d` at root-relative path `rel ++ [d]` is pruned when its name
starts with `"."`, or when for some exclusion `ex`:
`rel == ex or rel.startswith(ex.rstrip("/") + "/") or d == ex`.
(Entries carry no trailing slash, so `ex.rstrip("/") = ex`; at the
component level `rel == ex` is list equality and the `startswith` test
is strict prefix, so the first two disjuncts amount to list prefix.) -/
def pruneDir (excl : List (List String)) (rel : List String) (d : String) : Bool :=
  pyStartsWith "." d ||
    excl.any (fun ex => decide (rel ++ [d] = ex) ||
      (ex.isPrefixOf (rel ++ [d]) && !(decide (rel ++ [d] = ex))) ||
      decide ([d] = ex))

/-- The file filter of `iter_obs_files`: files ending in `.tmp` or
`.lock` are skipped. -/
def skipFile (f : String) : Bool :=
  pyEndsWith ".tmp" f || pyEndsWith ".lock" f

mutual

/-- `iter_obs_files` (the `os.walk` loop): at each directory (reached
at root-relative path `rel`) yield the non-skipped files of that
directory, then descend into every non-pruned subdirectory, in
directory order.  `os.walk` on a file path yields nothing. -/
def walkFiles (excl : List (List String)) (rel : List String) : Fs → List (List String × Bytes)
  | .file _ => []
  | .dir ch =>
    ch.filterMap (fun e =>
      match e with
      | (n, .file c) => if skipFile n then none else some (rel ++ [n], c)
      | (_, .dir _) => none) ++ walkDirs excl rel ch

/-- The descent of `os.walk` into the non-pruned subdirectories. -/
def walkDirs (excl : List (List String)) (rel : List String) :
    List (String × Fs) → List (List String × Bytes)
  | [] => []
  | (n, .dir ch') :: rest =>
    (if pruneDir excl rel n then [] else walkFiles excl (rel ++ [n]) (.dir ch')) ++
      walkDirs excl rel rest
  | (_, .file _) :: rest => walkDirs excl rel rest

end

example :
    walkFiles (excludedDirs false false) []
      (.dir [("a.txt", .file [1]),
             ("cache", .dir [("x", .file [2])]),
             ("sub", .dir [("b.txt", .file [3]), ("logs", .dir [("l", .file [4])])]),
             ("c.tmp", .file [5])]) =
      [(["a.txt"], [1]), (["sub", "b.txt"], [3])] := by
  decide

/-! ### Walker lemmas -/

theorem mem_walkDirs {excl : List (List String)} {rel : List String}
    {ch : List (String × Fs)} {q : List String} {c : Bytes} :
    (q, c) ∈ walkDirs excl rel ch ↔
      ∃ n ch', (n, Fs.dir ch') ∈ ch ∧ pruneDir excl rel n = false ∧
        (q, c) ∈ walkFiles excl (rel ++ [n]) (.dir ch') := by
  induction ch with
  | nil => simp [walkDirs]
  | cons e rest ih =>
    obtain ⟨n, t⟩ := e
    cases t with
    | file cf =>
      rw [walkDirs, ih]
      constructor
      · rintro ⟨m, ch', hm, hk, hq⟩; exact ⟨m, ch', List.mem_cons_of_mem _ hm, hk, hq⟩
      · rintro ⟨m, ch', hm, hk, hq⟩
        rcases List.mem_cons.mp hm with h | h
        · cases h
        · exact ⟨m, ch', h, hk, hq⟩
    | dir ch' =>
      rw [walkDirs]
      by_cases hp : pruneDir excl rel n
      · simp only [hp, if_pos, List.nil_append, ih]
        constructor
        · rintro ⟨m, ch'', hm, hk, hq⟩; exact ⟨m, ch'', List.mem_cons_of_mem _ hm, hk, hq⟩
        · rintro ⟨m, ch'', hm, hk, hq⟩
          rcases List.mem_cons.mp hm with h | h
          · obtain ⟨rfl, h2⟩ := Prod.mk.injEq .. ▸ h
            cases h2; rw [hp] at hk; cases hk
          · exact ⟨m, ch'', h, hk, hq⟩
      · simp only [hp, if_neg, List.mem_append, ih, Bool.not_eq_true]
        constructor
        · rintro (hq | ⟨m, ch'', hm, hk, hq⟩)
          · exact ⟨n, ch', List.mem_cons_self .., Bool.eq_false_iff.mpr hp, hq⟩
          · exact ⟨m, ch'', List.mem_cons_of_mem _ hm, hk, hq⟩
        · rintro ⟨m, ch'', hm, hk, hq⟩
          rcases List.mem_cons.mp hm with h | h
          · obtain ⟨rfl, h2⟩ := Prod.mk.injEq .. ▸ h
            cases h2; exact Or.inl hq
          · exact Or.inr ⟨m, ch'', h, hk, hq⟩

theorem mem_walkFiles_dir {excl : List (List String)} {rel : List String}
    {ch : List (String × Fs)} {q : List String} {c : Bytes} :
    (q, c) ∈ walkFiles excl rel (.dir ch) ↔
      (∃ n, (n, Fs.file c) ∈ ch ∧ skipFile n = false ∧ q = rel ++ [n]) ∨
        (q, c) ∈ walkDirs excl rel ch := by
  rw [walkFiles, List.mem_append]
  apply or_congr _ Iff.rfl
  rw [List.mem_filterMap]
  constructor
  · rintro ⟨⟨n, t⟩, hm, hf⟩
    cases t with
    | file cf =>
      by_cases hs : skipFile n
      · simp [hs] at hf
      · simp only [hs, if_neg, Bool.false_eq_true, Option.some.injEq, Prod.mk.injEq] at hf
        obtain ⟨rfl, rfl⟩ := hf
        exact ⟨n, hm, Bool.eq_false_iff.mpr hs, rfl⟩
    | dir ch' => simp at hf
  · rintro ⟨n, hm, hs, rfl⟩
    exact ⟨(n, Fs.file c), hm, by simp [hs]⟩

theorem pruneDir_eq_false_iff {excl : List (List String)} {rel : List String} {d : String} :
    pruneDir excl rel d = false ↔
      pyStartsWith "." d = false ∧ ∀ ex ∈ excl, ¬ ex <+: rel ++ [d] ∧ [d] ≠ ex := by
  constructor
  · intro h
    rw [pruneDir, Bool.or_eq_false_iff] at h
    refine ⟨h.1, ?_⟩
    intro ex hex
    have h2 := List.any_eq_false.mp h.2 ex hex
    simp only [Bool.or_eq_true, Bool.and_eq_true, decide_eq_true_eq, Bool.not_eq_false',
      not_or] at h2
    obtain ⟨⟨he1, he2⟩, he3⟩ := h2
    refine ⟨?_, fun hh => he3 hh⟩
    intro hpre
    by_cases heq : rel ++ [d] = ex
    · exact he1 heq
    · exact he2 ⟨List.isPrefixOf_iff_prefix.mpr hpre, by simpa using heq⟩
  · rintro ⟨h1, h2⟩
    rw [pruneDir, Bool.or_eq_false_iff]
    refine ⟨h1, List.any_eq_false.mpr ?_⟩
    intro ex hex
    simp only [Bool.or_eq_true, Bool.and_eq_true, decide_eq_true_eq, Bool.not_eq_false',
      not_or]
    obtain ⟨hp, hne⟩ := h2 ex hex
    refine ⟨⟨?_, ?_⟩, fun hh => hne hh⟩
    · intro heq; exact hp (heq ▸ List.prefix_refl _)
    · rintro ⟨hpre, -⟩
      exact hp (List.isPrefixOf_iff_prefix.mp hpre)

/-- No file yielded by the walker lies strictly below a path that the
active exclusion set would prune (invariant form, over the accumulated
root-relative prefix `rel`). -/
theorem walk_no_strict_under (excl : List (List String)) :
    ∀ t : Fs, ∀ rel : List String, (∀ ex ∈ excl, ¬ ex <+: rel) →
      ∀ q c, (q, c) ∈ walkFiles excl rel t →
        ∀ ex ∈ excl, ¬ (ex <+: q ∧ ex ≠ q) := by
  intro t
  induction t using Fs.inductionOn with
  | hfile c => intro rel _ q c' hq; simp [walkFiles] at hq
  | hdir ch ihch =>
    rintro rel hrel q c hq ex hex ⟨hpre, hne⟩
    rcases mem_walkFiles_dir.mp hq with ⟨n, _, _, rfl⟩ | hd
    · rcases List.prefix_concat_iff.mp hpre with h | h
      · exact hne h
      · exact hrel ex hex h
    · rcases mem_walkDirs.mp hd with ⟨m, ch', hmem, hkeep, hq'⟩
      have hrel' : ∀ ex' ∈ excl, ¬ ex' <+: rel ++ [m] := by
        intro ex' hex'
        exact ((pruneDir_eq_false_iff.mp hkeep).2 ex' hex').1
      exact ihch (m, .dir ch') hmem (rel ++ [m]) hrel' q c hq' ex hex ⟨hpre, hne⟩

/-- Every non-final component of a yielded path names a directory the
walker descended into, hence one whose bare name is not an exclusion
entry (invariant form). -/
theorem walk_components_not_excluded (excl : List (List String)) :
    ∀ t : Fs, ∀ rel : List String, (∀ comp ∈ rel, [comp] ∉ excl) →
      ∀ q c, (q, c) ∈ walkFiles excl rel t →
        ∀ comp ∈ q.dropLast, [comp] ∉ excl := by
  intro t
  induction t using Fs.inductionOn with
  | hfile c => intro rel _ q c' hq; simp [walkFiles] at hq
  | hdir ch ihch =>
    rintro rel hrel q c hq comp hcomp
    rcases mem_walkFiles_dir.mp hq with ⟨n, _, _, rfl⟩ | hd
    · rw [List.dropLast_concat] at hcomp
      exact hrel comp hcomp
    · rcases mem_walkDirs.mp hd with ⟨m, ch', hmem, hkeep, hq'⟩
      have hrel' : ∀ comp' ∈ rel ++ [m], [comp'] ∉ excl := by
        intro comp' hc'
        rcases List.mem_append.mp hc' with h | h
        · exact hrel comp' h
        · rcases List.mem_singleton.mp h with rfl
          intro hmem'
          exact ((pruneDir_eq_false_iff.mp hkeep).2 _ hmem').2 rfl
      exact ihch (m, .dir ch') hmem (rel ++ [m]) hrel' q c hq' comp hcomp

/-- Every entry of every active exclusion set is a nonempty path. -/
theorem excludedDirs_ne_nil :
    ∀ il ic : Bool, ∀ ex ∈ excludedDirs il ic, ex ≠ [] := by decide

/-! ### Claim C4 — exclusion of subtrees, `includeCache` override

The claim as frozen says *no file whose root-relative path equals or
lies under a directory in the active exclusion set appears* in the
walker's output.  The "lies under" part and the `includeCache` part
hold; the "equals" part fails, because `iter_obs_files` matches the
exclusion set against directories only: a regular *file* whose
root-relative path equals an exclusion entry (e.g. a file named
`crashes` at the config root) is still yielded. -/

/-- C4 counterexample: a regular file named `crashes` at the config
root is yielded by the walker even though its root-relative path
equals the exclusion entry `crashes` of the default exclusion set, so
the claim's "path equals a directory in the active exclusion set is
never yielded" part is false on the code. -/
theorem claim_C4_counterexample :
    ["crashes"] ∈ excludedDirs false false ∧
      walkFiles (excludedDirs false false) [] (.dir [("crashes", .file [0])]) =
        [(["crashes"], [0])] := by
  decide

/-- C4 (amended): for every exclusion-flag configuration, no yielded
file lies strictly under an entry of the active exclusion set — an
excluded directory excludes its entire subtree (only directories are
matched against the set, so a file whose own path equals an entry may
still be yielded); and setting `includeCache` removes exactly the
`cache` and `plugin_config/cef_cache` entries while the `crashes`
entry (and the `logs` entry, when logs are excluded) remains. -/
theorem claim_C4_excluded_subtrees :
    (∀ il ic : Bool, ∀ t : Fs, ∀ q : List String, ∀ c : Bytes, ∀ ex : List String,
        ex ∈ excludedDirs il ic →
        (q, c) ∈ walkFiles (excludedDirs il ic) [] t →
        ¬ (ex <+: q ∧ ex ≠ q)) ∧
      (∀ il : Bool, ["cache"] ∉ excludedDirs il true ∧
        ["plugin_config", "cef_cache"] ∉ excludedDirs il true ∧
        ["crashes"] ∈ excludedDirs il true ∧ ["logs"] ∈ excludedDirs false true) := by
  constructor
  · intro il ic t q c ex hex hq
    refine walk_no_strict_under _ t [] ?_ q c hq ex hex
    intro ex' hex' hpre
    exact excludedDirs_ne_nil il ic ex' hex' (List.prefix_nil.mp hpre)
  · decide

/-- C4 witness: instantiation of `claim_C4_excluded_subtrees` on a
concrete tree: `sub/a` is yielded and does not lie under `crashes`. -/
theorem claim_C4_witness :
    (["crashes"] ∈ excludedDirs false false) ∧
      ((["sub", "a"], [1]) ∈ walkFiles (excludedDirs false false) []
        (.dir [("sub", .dir [("a", .file [1])])])) ∧
      ¬ (["crashes"] <+: ["sub", "a"] ∧ ["crashes"] ≠ ["sub", "a"]) :=
  ⟨by decide, by decide,
    claim_C4_excluded_subtrees.1 false false
      (.dir [("sub", .dir [("a", .file [1])])]) ["sub", "a"] [1] ["crashes"]
      (by decide) (by decide)⟩

/-! ### Claim C10 — bare-name pruning at any depth -/

/-- C10 counterexample: the final component of a yielded path is a
*file* name, and files are never matched against the exclusion set: a
regular file named `cache` is yielded under default flags, so "no
yielded relative path contains a path component named `cache`,
`crashes`, or `logs` anywhere" is false as stated. -/
theorem claim_C10_counterexample :
    walkFiles (excludedDirs false false) [] (.dir [("cache", .file [0])]) =
      [(["cache"], [0])] ∧ "cache" ∈ (["cache"] : List String) := by
  decide

/-- C10 (amended): the walker prunes any directory whose bare name
equals an exclusion entry at any depth, so under default flags no
yielded relative path contains a *non-final* component (a directory
component) named `cache`, `crashes` or `logs`; the final component of
a yielded path is the file's own name and may coincide with such a
name. -/
theorem claim_C10_bare_name_pruning :
    ∀ t : Fs, ∀ q : List String, ∀ c : Bytes,
      (q, c) ∈ walkFiles (excludedDirs false false) [] t →
      ∀ comp ∈ q.dropLast, comp ≠ "cache" ∧ comp ≠ "crashes" ∧ comp ≠ "logs" := by
  intro t q c hq comp hcomp
  have h := walk_components_not_excluded _ t [] (by simp) q c hq comp hcomp
  refine ⟨?_, ?_, ?_⟩ <;> rintro rfl <;> exact h (by decide)

/-- C10 witness: instantiation of `claim_C10_bare_name_pruning` on a
concrete tree with a nested yielded file `sub/f`. -/
theorem claim_C10_witness :
    ((["sub", "f"], [2]) ∈ walkFiles (excludedDirs false false) []
        (.dir [("sub", .dir [("f", .file [2])])])) ∧
      ("sub" ∈ (["sub", "f"] : List String).dropLast) ∧
      ("sub" ≠ "cache" ∧ "sub" ≠ "crashes" ∧ "sub" ≠ "logs") :=
  ⟨by decide, by decide,
    claim_C10_bare_name_pruning (.dir [("sub", .dir [("f", .file [2])])])
      ["sub", "f"] [2] (by decide) "sub" (by decide)⟩

/-! ## Path resolution, file creation and deletion

These model the `pathlib`/`shutil` operations the backup and restore
code uses on trees: existence/lookup (`nodeAt`), reading a file
(`resolveFile`), `ensure_parent` + write (`insertAt`), and
`shutil.rmtree`/`Path.unlink` (`deleteAt`). -/

/-- Look up the child named `n` of a directory's entry list (path
resolution step; on a real filesystem names are unique, the model
takes the first). -/
def lookupChild (ch : List (String × Fs)) (n : String) : Option Fs :=
  match ch.find? (fun e => e.1 == n) with
  | some e => some e.2
  | none => none

/-- The node at a relative component path, if any; `Path.exists()` is
`(nodeAt t p).isSome`. -/
def nodeAt : Fs → List String → Option Fs
  | t, [] => some t
  | .file _, _ :: _ => none
  | .dir ch, n :: p =>
    match lookupChild ch n with
    | some t' => nodeAt t' p
    | none => none

/-- The file contents at a relative path, if a file is there
(`open(p, "rb").read()`). -/
def resolveFile (t : Fs) (p : List String) : Option Bytes :=
  match nodeAt t p with
  | some (.file c) => some c
  | _ => none

/-- Replace the first child named `n` by `f` applied to it, or append
a fresh child `(n, f (.dir []))`: the effect on one directory level of
creating-or-descending during `mkdir(parents=True, exist_ok=True)`
followed by a write. -/
def upsertChild (n : String) (f : Fs → Fs) : List (String × Fs) → List (String × Fs)
  | [] => [(n, f (.dir []))]
  | (m, sub) :: rest =>
    if m = n then (m, f sub) :: rest else (m, sub) :: upsertChild n f rest

/-- `ensure_parent(dest)` followed by writing file contents `c` at
`dest = p`: create the intermediate directories of `p` as needed and
put the file there.  (When an intermediate component is an existing
*file* the real calls would raise `NotADirectoryError`; the embedding
replaces it by a directory — unreachable for the prefix-free path sets
produced by walking a tree, which is the only way it is used here.) -/
def insertAt : List String → Bytes → Fs → Fs
  | [], c, _ => .file c
  | n :: p, c, .file _ => .dir [(n, insertAt p c (.dir []))]
  | n :: p, c, .dir ch => .dir (upsertChild n (insertAt p c) ch)

/-- Apply `f` to the first child named `n`, if any. -/
def modifyChild (n : String) (f : Fs → Fs) : List (String × Fs) → List (String × Fs)
  | [] => []
  | (m, sub) :: rest =>
    if m = n then (m, f sub) :: rest else (m, sub) :: modifyChild n f rest

/-- Removal of the entry at path `p` (`shutil.rmtree` for a directory,
`Path.unlink` for a file); a no-op on paths that do not resolve. -/
def deleteAt : List String → Fs → Fs
  | [], t => t
  | _ :: _, .file c => .file c
  | [n], .dir ch => .dir (ch.filter (fun e => decide (e.1 ≠ n)))
  | n :: x :: p, .dir ch => .dir (modifyChild n (deleteAt (x :: p)) ch)

mutual

/-- The pair-collection loop of `_restore_from_folder`:
`for p in start.rglob("*"): if p.is_file(): pairs.append((rel, read))` —
every file below the root, with path relative to the root, no
exclusions.  `rglob` on a file path yields nothing. -/
def rglobFiles (rel : List String) : Fs → List (List String × Bytes)
  | .file _ => []
  | .dir ch =>
    ch.filterMap (fun e =>
      match e with
      | (n, .file c) => some (rel ++ [n], c)
      | (_, .dir _) => none) ++ rglobDirs rel ch

/-- Descent of `rglob` into every subdirectory. -/
def rglobDirs (rel : List String) : List (String × Fs) → List (List String × Bytes)
  | [] => []
  | (n, .dir ch') :: rest => rglobFiles (rel ++ [n]) (.dir ch') ++ rglobDirs rel rest
  | (_, .file _) :: rest => rglobDirs rel rest

end

/-- The copy loop of `create_local_backup_folder`: walk the config
tree and copy each yielded file to `backup_root/obs-studio/<rel>`,
creating parents as needed.  The backup-root directory itself comes
into existence only through `ensure_parent` for the first copied file,
so when the walk yields nothing the returned path does not exist on
disk: `none`. -/
def createLocalBackupTree (includeLogs includeCache : Bool) (t : Fs) : Option Fs :=
  let pairs := walkFiles (excludedDirs includeLogs includeCache) [] t
  if pairs.isEmpty then none
  else some (pairs.foldl (fun acc qc => insertAt ("obs-studio" :: qc.1) qc.2 acc) (.dir []))

/-- The first match of `folder.glob("*/obs-studio")`: the `obs-studio`
entry of the first subdirectory that has one. -/
def globStarObsStudio : List (String × Fs) → Option Fs
  | [] => none
  | (_, .dir ch') :: rest =>
    match lookupChild ch' "obs-studio" with
    | some e => some e
    | none => globStarObsStudio rest
  | (_, .file _) :: rest => globStarObsStudio rest

/-- Root selection of `_restore_from_folder`: `root = folder`; if
`(folder / "obs-studio").exists()` then that entry; elif the folder is
not itself named `obs-studio`, the first `glob("*/obs-studio")` match
if any; else the folder itself. -/
def selectRestoreRoot (name : String) (f : Fs) : Fs :=
  match f with
  | .file _ => f
  | .dir ch =>
    match lookupChild ch "obs-studio" with
    | some e => e
    | none =>
      if name ≠ "obs-studio" then
        match globStarObsStudio ch with
        | some e => e
        | none => f
      else f

/-- `_restore_from_folder` up to (and excluding) the final call to
`_restore_pairs_to_config`: validate the source
(`if not folder.exists() or not folder.is_dir(): raise`), select the
root, and collect `(relative path, bytes)` pairs for every file under
it.  `none` stands for a path that does not exist on disk; the folder
argument also carries the folder's own name (`folder.name`). -/
def restoreFromFolder (name : String) (folder : Option Fs) :
    Except String (List (List String × Bytes)) :=
  match folder with
  | none => .error "Invalid backup folder."
  | some (.file _) => .error "Invalid backup folder."
  | some (.dir ch) => .ok (rglobFiles [] (selectRestoreRoot name (.dir ch)))

/-- The overwrite pass of `_restore_pairs_to_config` (its snapshot
step is modelled separately, see the C2 section): for each pair in
order, if the destination exists remove it, then create parents and
write the bytes. -/
def applyRestorePairs (cfg : Fs) (pairs : List (List String × Bytes)) : Fs :=
  pairs.foldl (fun acc qc =>
    insertAt qc.1 qc.2 (if (nodeAt acc qc.1).isSome then deleteAt qc.1 acc else acc)) cfg

instance {ε α : Type} [DecidableEq ε] [DecidableEq α] : DecidableEq (Except ε α) := fun x y =>
  match x, y with
  | .ok a, .ok b => if h : a = b then .isTrue (by rw [h]) else .isFalse (by simp [h])
  | .error a, .error b => if h : a = b then .isTrue (by rw [h]) else .isFalse (by simp [h])
  | .ok _, .error _ => .isFalse (by simp)
  | .error _, .ok _ => .isFalse (by simp)

example :
    restoreFromFolder "obs-config-host-1"
      (createLocalBackupTree false false
        (.dir [("a", .file [1]), ("cache", .dir [("x", .file [2])])])) =
      .ok [(["a"], [1])] := by
  decide

example :
    resolveFile
      (applyRestorePairs (.dir [("a", .file [9]), ("cache", .dir [("x", .file [2])])])
        [(["a"], [1])]) ["cache", "x"] = some [2] := by
  decide

/-! ### Resolution lemmas for insertion and deletion -/

theorem lookupChild_nil {n : String} : lookupChild [] n = none := rfl

theorem lookupChild_cons {m : String} {sub : Fs} {rest : List (String × Fs)} {n : String} :
    lookupChild ((m, sub) :: rest) n = if m = n then some sub else lookupChild rest n := by
  by_cases h : m = n <;> simp [lookupChild, List.find?_cons, h]

theorem lookupChild_upsert {n m : String} {f : Fs → Fs} {ch : List (String × Fs)} :
    lookupChild (upsertChild n f ch) m =
      if m = n then some (f ((lookupChild ch n).getD (.dir []))) else lookupChild ch m := by
  induction ch with
  | nil =>
    by_cases h : m = n
    · subst h; simp [upsertChild, lookupChild_cons, lookupChild_nil]
    · have h2 : n ≠ m := fun hh => h hh.symm
      simp [upsertChild, lookupChild_cons, lookupChild_nil, h, h2]
  | cons e rest ih =>
    obtain ⟨k, sub⟩ := e
    rw [upsertChild]
    by_cases hk : k = n
    · subst hk
      by_cases hm : k = m
      · subst hm; simp [lookupChild_cons]
      · have hmn : m ≠ k := fun hh => hm hh.symm
        simp [lookupChild_cons, hm, hmn]
    · simp only [if_neg hk]
      by_cases hm : k = m
      · subst hm
        have hmn : k ≠ n := hk
        simp [lookupChild_cons, hmn, ih]
      · simp [lookupChild_cons, hm, hk, ih]

theorem lookupChild_modify {n m : String} {f : Fs → Fs} {ch : List (String × Fs)} :
    lookupChild (modifyChild n f ch) m =
      if m = n then (lookupChild ch n).map f else lookupChild ch m := by
  induction ch with
  | nil =>
    by_cases h : m = n <;> simp [modifyChild, lookupChild_nil, h]
  | cons e rest ih =>
    obtain ⟨k, sub⟩ := e
    rw [modifyChild]
    by_cases hk : k = n
    · subst hk
      by_cases hm : k = m
      · subst hm; simp [lookupChild_cons]
      · have hmn : m ≠ k := fun hh => hm hh.symm
        simp [lookupChild_cons, hm, hmn]
    · simp only [if_neg hk]
      by_cases hm : k = m
      · subst hm
        have hmn : k ≠ n := hk
        simp [lookupChild_cons, hmn, ih]
      · simp [lookupChild_cons, hm, hk, ih]

theorem lookupChild_filter_ne {n m : String} {ch : List (String × Fs)} (h : m ≠ n) :
    lookupChild (ch.filter (fun e => decide (e.1 ≠ n))) m = lookupChild ch m := by
  induction ch with
  | nil => simp [lookupChild_nil]
  | cons e rest ih =>
    obtain ⟨k, sub⟩ := e
    by_cases hk : k = n
    · subst hk
      rw [List.filter_cons_of_neg (by simp), ih, lookupChild_cons]
      have h3 : k ≠ m := fun hh => h hh.symm
      simp [h3]
    · rw [List.filter_cons_of_pos (by simp [hk]), lookupChild_cons, lookupChild_cons, ih]

theorem resolveFile_emptyDir {q : List String} : resolveFile (.dir []) q = none := by
  cases q with
  | nil => rfl
  | cons n s => simp [resolveFile, nodeAt, lookupChild_nil]

theorem resolveFile_dir_nil {ch : List (String × Fs)} : resolveFile (.dir ch) [] = none := rfl

theorem resolveFile_file_cons {c : Bytes} {n : String} {s : List String} :
    resolveFile (.file c) (n :: s) = none := rfl

theorem resolveFile_dir_cons {ch : List (String × Fs)} {n : String} {s : List String} :
    resolveFile (.dir ch) (n :: s) =
      match lookupChild ch n with
      | some t' => resolveFile t' s
      | none => none := by
  cases h : lookupChild ch n <;> simp [resolveFile, nodeAt, h]

theorem insertAt_cons_dir {n : String} {p : List String} {c : Bytes} {t : Fs} :
    ∃ ch, insertAt (n :: p) c t = .dir ch := by
  cases t with
  | file cf => exact ⟨_, rfl⟩
  | dir ch => exact ⟨_, rfl⟩

theorem resolve_insertAt_self : ∀ (p : List String) (c : Bytes) (t : Fs),
    resolveFile (insertAt p c t) p = some c := by
  intro p
  induction p with
  | nil => intro c t; rfl
  | cons n p ih =>
    intro c t
    cases t with
    | file cf =>
      rw [insertAt, resolveFile_dir_cons]
      simp [lookupChild_cons, ih]
    | dir ch =>
      rw [insertAt, resolveFile_dir_cons, lookupChild_upsert]
      simp [ih]

theorem resolve_insertAt_above : ∀ (q p : List String) (c : Bytes) (t : Fs),
    q <+: p → q ≠ p → resolveFile (insertAt p c t) q = none := by
  intro q
  induction q with
  | nil =>
    intro p c t _ hne
    cases p with
    | nil => exact absurd rfl hne
    | cons n p' =>
      obtain ⟨ch, hch⟩ := insertAt_cons_dir (n := n) (p := p') (c := c) (t := t)
      rw [hch]; exact resolveFile_dir_nil
  | cons m q' ih =>
    intro p c t hpre hne
    cases p with
    | nil => exact absurd (List.prefix_nil.mp hpre) hne
    | cons n p' =>
      obtain ⟨rfl, hpre'⟩ := List.cons_prefix_cons.mp hpre
      have hne' : q' ≠ p' := fun h => hne (h ▸ rfl)
      cases t with
      | file cf =>
        rw [insertAt, resolveFile_dir_cons]
        simp only [lookupChild_cons, if_pos rfl]
        exact ih p' c _ hpre' hne'
      | dir ch =>
        rw [insertAt, resolveFile_dir_cons, lookupChild_upsert]
        simp only [if_pos rfl]
        exact ih p' c _ hpre' hne'

theorem resolve_insertAt_below : ∀ (p q : List String) (c : Bytes) (t : Fs),
    p <+: q → p ≠ q → resolveFile (insertAt p c t) q = none := by
  intro p
  induction p with
  | nil =>
    intro q c t _ hne
    cases q with
    | nil => exact absurd rfl hne
    | cons n q' => rw [insertAt]; exact resolveFile_file_cons
  | cons n p' ih =>
    intro q c t hpre hne
    cases q with
    | nil => exact absurd (List.prefix_nil.mp hpre) hne
    | cons m q' =>
      obtain ⟨rfl, hpre'⟩ := List.cons_prefix_cons.mp hpre
      have hne' : p' ≠ q' := fun h => hne (h ▸ rfl)
      cases t with
      | file cf =>
        rw [insertAt, resolveFile_dir_cons]
        simp only [lookupChild_cons, if_pos rfl]
        exact ih q' c _ hpre' hne'
      | dir ch =>
        rw [insertAt, resolveFile_dir_cons, lookupChild_upsert]
        simp only [if_pos rfl]
        exact ih q' c _ hpre' hne'

theorem resolve_insertAt_other : ∀ (q p : List String) (c : Bytes) (t : Fs),
    ¬ q <+: p → ¬ p <+: q → resolveFile (insertAt p c t) q = resolveFile t q := by
  intro q
  induction q with
  | nil => intro p c t h1 _; exact absurd (List.nil_prefix) h1
  | cons m q' ih =>
    intro p c t h1 h2
    cases p with
    | nil => exact absurd (List.nil_prefix) h2
    | cons n p' =>
      by_cases hmn : m = n
      · subst hmn
        have h1' : ¬ q' <+: p' := fun h => h1 (List.cons_prefix_cons.mpr ⟨rfl, h⟩)
        have h2' : ¬ p' <+: q' := fun h => h2 (List.cons_prefix_cons.mpr ⟨rfl, h⟩)
        cases t with
        | file cf =>
          rw [insertAt, resolveFile_dir_cons, resolveFile_file_cons]
          simp only [lookupChild_cons, if_pos]
          rw [ih p' c _ h1' h2']
          exact resolveFile_emptyDir
        | dir ch =>
          rw [insertAt, resolveFile_dir_cons, resolveFile_dir_cons, lookupChild_upsert]
          simp only [if_pos]
          rw [ih p' c _ h1' h2']
          cases hl : lookupChild ch m with
          | some sub => simp [hl]
          | none => simp [hl, resolveFile_emptyDir]
      · cases t with
        | file cf =>
          rw [insertAt, resolveFile_dir_cons, resolveFile_file_cons]
          have hnm : n ≠ m := fun h => hmn h.symm
          simp [lookupChild_cons, hnm, lookupChild_nil]
        | dir ch =>
          rw [insertAt, resolveFile_dir_cons, resolveFile_dir_cons, lookupChild_upsert]
          simp only [if_neg hmn]

theorem resolve_deleteAt_not_under : ∀ (p q : List String) (t : Fs),
    ¬ p <+: q → resolveFile (deleteAt p t) q = resolveFile t q := by
  intro p
  induction p with
  | nil => intro q t h; exact absurd (List.nil_prefix) h
  | cons n p' ih =>
    intro q t h
    cases t with
    | file cf =>
      cases p' <;> rw [deleteAt]
    | dir ch =>
      cases p' with
      | nil =>
        rw [deleteAt]
        cases q with
        | nil => rfl
        | cons m q' =>
          have hmn : m ≠ n := by
            rintro rfl
            exact h (List.cons_prefix_cons.mpr ⟨rfl, List.nil_prefix⟩)
          rw [resolveFile_dir_cons, resolveFile_dir_cons, lookupChild_filter_ne hmn]
      | cons x p'' =>
        rw [deleteAt]
        cases q with
        | nil => rfl
        | cons m q' =>
          by_cases hmn : m = n
          · subst hmn
            have h' : ¬ (x :: p'') <+: q' :=
              fun hh => h (List.cons_prefix_cons.mpr ⟨rfl, hh⟩)
            rw [resolveFile_dir_cons, resolveFile_dir_cons, lookupChild_modify]
            simp only [if_pos rfl]
            cases hl : lookupChild ch m with
            | some sub => simp only [Option.map_some]; exact ih q' sub h'
            | none => simp
          · rw [resolveFile_dir_cons, resolveFile_dir_cons, lookupChild_modify]
            simp only [if_neg hmn]

theorem nodeAt_dir_cons {ch : List (String × Fs)} {n : String} {p : List String} :
    nodeAt (.dir ch) (n :: p) =
      match lookupChild ch n with
      | some t' => nodeAt t' p
      | none => none := rfl

theorem nodeAt_append : ∀ (q r : List String) (t : Fs),
    nodeAt t (q ++ r) =
      match nodeAt t q with
      | some t' => nodeAt t' r
      | none => none := by
  intro q
  induction q with
  | nil => intro r t; cases t <;> rfl
  | cons n q' ih =>
    intro r t
    cases t with
    | file cf => rfl
    | dir ch =>
      rw [List.cons_append, nodeAt_dir_cons, nodeAt_dir_cons]
      cases hl : lookupChild ch n with
      | some t' => simp only; exact ih r t'
      | none => rfl

/-! ### The restore overwrite pass resolves like plain insertion -/

/-- Plain sequential insertion of a pair list (the shape of the backup
copy loop). -/
def buildPairs (t : Fs) (pairs : List (List String × Bytes)) : Fs :=
  pairs.foldl (fun acc qc => insertAt qc.1 qc.2 acc) t

theorem resolve_restoreStep (p : List String) (c : Bytes) (t : Fs) (q : List String) :
    resolveFile (insertAt p c (if (nodeAt t p).isSome then deleteAt p t else t)) q =
      resolveFile (insertAt p c t) q := by
  by_cases hq : q = p
  · subst hq; rw [resolve_insertAt_self, resolve_insertAt_self]
  · by_cases h1 : q <+: p
    · rw [resolve_insertAt_above _ _ _ _ h1 hq, resolve_insertAt_above _ _ _ _ h1 hq]
    · by_cases h2 : p <+: q
      · have hne : p ≠ q := fun h => hq h.symm
        rw [resolve_insertAt_below _ _ _ _ h2 hne, resolve_insertAt_below _ _ _ _ h2 hne]
      · rw [resolve_insertAt_other _ _ _ _ h1 h2, resolve_insertAt_other _ _ _ _ h1 h2]
        by_cases hs : (nodeAt t p).isSome
        · rw [if_pos hs]; exact resolve_deleteAt_not_under _ _ _ h2
        · rw [if_neg hs]

theorem resolve_insert_congr {t1 t2 : Fs} (h : ∀ q, resolveFile t1 q = resolveFile t2 q)
    (p : List String) (c : Bytes) :
    ∀ q, resolveFile (insertAt p c t1) q = resolveFile (insertAt p c t2) q := by
  intro q
  by_cases hq : q = p
  · subst hq; rw [resolve_insertAt_self, resolve_insertAt_self]
  · by_cases h1 : q <+: p
    · rw [resolve_insertAt_above _ _ _ _ h1 hq, resolve_insertAt_above _ _ _ _ h1 hq]
    · by_cases h2 : p <+: q
      · have hne : p ≠ q := fun hh => hq hh.symm
        rw [resolve_insertAt_below _ _ _ _ h2 hne, resolve_insertAt_below _ _ _ _ h2 hne]
      · rw [resolve_insertAt_other _ _ _ _ h1 h2, resolve_insertAt_other _ _ _ _ h1 h2]
        exact h q

/-- The delete-then-write pass of the restore produces a tree whose
files resolve exactly as plain insertion of the same pairs. -/
theorem resolve_applyRestorePairs_eq_build :
    ∀ (L : List (List String × Bytes)) (t1 t2 : Fs),
      (∀ q, resolveFile t1 q = resolveFile t2 q) →
      ∀ q, resolveFile (applyRestorePairs t1 L) q = resolveFile (buildPairs t2 L) q := by
  intro L
  induction L with
  | nil => intro t1 t2 h q; exact h q
  | cons pc L ih =>
    intro t1 t2 h q
    obtain ⟨p, c⟩ := pc
    simp only [applyRestorePairs, buildPairs, List.foldl_cons] at ih ⊢
    apply ih
    intro q'
    rw [resolve_restoreStep]
    exact resolve_insert_congr h p c q'

/-- Characterization of plain insertion of a pair list into an empty
directory: under path-functionality, prefix-freeness and nonemptiness
of the paths, the resolvable files are exactly the inserted pairs. -/
theorem resolve_buildPairs_iff :
    ∀ (L : List (List String × Bytes)),
      (∀ p c, (p, c) ∈ L → p ≠ []) →
      (∀ p c c', (p, c) ∈ L → (p, c') ∈ L → c = c') →
      (∀ p c p' c', (p, c) ∈ L → (p', c') ∈ L → p <+: p' → p = p') →
      ∀ q c, resolveFile (buildPairs (.dir []) L) q = some c ↔ (q, c) ∈ L := by
  intro L
  induction L using List.reverseRecOn with
  | nil => intro _ _ _ q c; simp [buildPairs, resolveFile_emptyDir]
  | append_singleton M pc ih =>
    intro hne hfun hpf q c
    obtain ⟨p, c₀⟩ := pc
    have hpM : (p, c₀) ∈ M ++ [(p, c₀)] := by simp
    have hneM : ∀ p' c', (p', c') ∈ M → p' ≠ [] :=
      fun p' c' h => hne p' c' (List.mem_append_left _ h)
    have hfunM : ∀ p' c' c'', (p', c') ∈ M → (p', c'') ∈ M → c' = c'' :=
      fun p' c' c'' h h' =>
        hfun p' c' c'' (List.mem_append_left _ h) (List.mem_append_left _ h')
    have hpfM : ∀ p' c' p'' c'', (p', c') ∈ M → (p'', c'') ∈ M → p' <+: p'' → p' = p'' :=
      fun p' c' p'' c'' h h' hp =>
        hpf p' c' p'' c'' (List.mem_append_left _ h) (List.mem_append_left _ h') hp
    rw [buildPairs, List.foldl_append, List.foldl_cons, List.foldl_nil]
    by_cases hq : q = p
    · subst hq
      rw [resolve_insertAt_self]
      simp only [List.mem_append, List.mem_singleton, Prod.mk.injEq]
      constructor
      · intro h
        exact Or.inr ⟨trivial, (Option.some.inj h).symm⟩
      · rintro (h | ⟨-, rfl⟩)
        · rw [hfun q c c₀ (List.mem_append_left _ h) hpM]
        · rfl
    · by_cases h1 : q <+: p
      · rw [resolve_insertAt_above _ _ _ _ h1 hq]
        simp only [List.mem_append, List.mem_singleton, Prod.mk.injEq]
        constructor
        · intro h; cases h
        · rintro (h | ⟨rfl, rfl⟩)
          · exact absurd (hpf q c p c₀ (List.mem_append_left _ h) hpM h1) hq
          · exact absurd rfl hq
      · by_cases h2 : p <+: q
        · have hne' : p ≠ q := fun hh => hq hh.symm
          rw [resolve_insertAt_below _ _ _ _ h2 hne']
          simp only [List.mem_append, List.mem_singleton, Prod.mk.injEq]
          constructor
          · intro h; cases h
          · rintro (h | ⟨rfl, rfl⟩)
            · exact absurd (hpf p c₀ q c hpM (List.mem_append_left _ h) h2) hne'
            · exact absurd rfl hq
        · rw [resolve_insertAt_other _ _ _ _ h1 h2]
          rw [buildPairs] at ih
          rw [ih hneM hfunM hpfM]
          simp only [List.mem_append, List.mem_singleton, Prod.mk.injEq]
          constructor
          · exact Or.inl
          · rintro (h | ⟨rfl, rfl⟩)
            · exact h
            · exact absurd rfl hq

/-! ### Wellformedness is preserved by insertion -/

theorem mem_upsertChild {n : String} {f : Fs → Fs} {ch : List (String × Fs)} :
    ∀ e ∈ upsertChild n f ch,
      e ∈ ch ∨ (∃ sub, (n, sub) ∈ ch ∧ e = (n, f sub)) ∨ e = (n, f (.dir [])) := by
  induction ch with
  | nil =>
    intro e he
    rw [upsertChild] at he
    exact Or.inr (Or.inr (List.mem_singleton.mp he))
  | cons e0 rest ih =>
    obtain ⟨k, sub⟩ := e0
    intro e he
    rw [upsertChild] at he
    by_cases hk : k = n
    · subst hk
      rw [if_pos rfl] at he
      rcases List.mem_cons.mp he with h | h
      · exact Or.inr (Or.inl ⟨sub, List.mem_cons_self .., h⟩)
      · exact Or.inl (List.mem_cons_of_mem _ h)
    · rw [if_neg hk] at he
      rcases List.mem_cons.mp he with h | h
      · exact Or.inl (h ▸ List.mem_cons_self ..)
      · rcases ih e h with h' | ⟨s2, hs2, he2⟩ | h'
        · exact Or.inl (List.mem_cons_of_mem _ h')
        · exact Or.inr (Or.inl ⟨s2, List.mem_cons_of_mem _ hs2, he2⟩)
        · exact Or.inr (Or.inr h')

theorem upsertChild_fst_mem {n : String} {f : Fs → Fs} {ch : List (String × Fs)}
    (h : n ∈ ch.map Prod.fst) :
    (upsertChild n f ch).map Prod.fst = ch.map Prod.fst := by
  induction ch with
  | nil => cases h
  | cons e0 rest ih =>
    obtain ⟨k, sub⟩ := e0
    rw [upsertChild]
    by_cases hk : k = n
    · subst hk; rw [if_pos rfl]; rfl
    · rw [if_neg hk]
      have h' : n ∈ rest.map Prod.fst := by
        rcases List.mem_cons.mp h with h0 | h0
        · exact absurd h0.symm hk
        · exact h0
      simp only [List.map_cons, ih h']

theorem upsertChild_fst_not_mem {n : String} {f : Fs → Fs} {ch : List (String × Fs)}
    (h : n ∉ ch.map Prod.fst) :
    (upsertChild n f ch).map Prod.fst = ch.map Prod.fst ++ [n] := by
  induction ch with
  | nil => rfl
  | cons e0 rest ih =>
    obtain ⟨k, sub⟩ := e0
    rw [upsertChild]
    have hk : ¬ k = n := by
      intro hh; exact h (by simp [hh])
    rw [if_neg hk]
    have h' : n ∉ rest.map Prod.fst := fun hh => h (by simp [hh])
    simp only [List.map_cons, ih h', List.cons_append]

theorem wf_insertAt : ∀ (p : List String) (c : Bytes) (t : Fs),
    Fs.wf t = true → Fs.wf (insertAt p c t) = true := by
  intro p
  induction p with
  | nil => intro c t _; rw [insertAt]; rfl
  | cons n p' ih =>
    intro c t hwf
    cases t with
    | file cf =>
      rw [insertAt]
      refine Fs.wf_dir.mpr ⟨by simp, ?_⟩
      intro e he
      rcases List.mem_singleton.mp he with rfl
      exact ih c (.dir []) (by decide)
    | dir ch =>
      rw [insertAt]
      obtain ⟨hnd, hch⟩ := Fs.wf_dir.mp hwf
      refine Fs.wf_dir.mpr ⟨?_, ?_⟩
      · by_cases hn : n ∈ ch.map Prod.fst
        · rw [upsertChild_fst_mem hn]; exact hnd
        · rw [upsertChild_fst_not_mem hn]
          refine List.Nodup.append hnd (List.nodup_singleton n) ?_
          intro a ha hb
          exact hn (List.mem_singleton.mp hb ▸ ha)
      · intro e he
        rcases mem_upsertChild e he with h | ⟨sub, hsub, rfl⟩ | rfl
        · exact hch e h
        · exact ih c sub (hch _ hsub)
        · exact ih c (.dir []) (by decide)

/-! ### Traversals versus resolution -/

theorem mem_rglobDirs {rel : List String} {ch : List (String × Fs)}
    {q : List String} {c : Bytes} :
    (q, c) ∈ rglobDirs rel ch ↔
      ∃ n ch', (n, Fs.dir ch') ∈ ch ∧ (q, c) ∈ rglobFiles (rel ++ [n]) (.dir ch') := by
  induction ch with
  | nil => simp [rglobDirs]
  | cons e rest ih =>
    obtain ⟨n, t⟩ := e
    cases t with
    | file cf =>
      rw [rglobDirs, ih]
      constructor
      · rintro ⟨m, ch', hm, hq⟩; exact ⟨m, ch', List.mem_cons_of_mem _ hm, hq⟩
      · rintro ⟨m, ch', hm, hq⟩
        rcases List.mem_cons.mp hm with h | h
        · cases h
        · exact ⟨m, ch', h, hq⟩
    | dir ch' =>
      rw [rglobDirs]
      rw [List.mem_append, ih]
      constructor
      · rintro (hq | ⟨m, ch'', hm, hq⟩)
        · exact ⟨n, ch', List.mem_cons_self .., hq⟩
        · exact ⟨m, ch'', List.mem_cons_of_mem _ hm, hq⟩
      · rintro ⟨m, ch'', hm, hq⟩
        rcases List.mem_cons.mp hm with h | h
        · obtain ⟨rfl, h2⟩ := Prod.mk.injEq .. ▸ h
          cases h2; exact Or.inl hq
        · exact Or.inr ⟨m, ch'', h, hq⟩

theorem mem_rglobFiles_dir {rel : List String} {ch : List (String × Fs)}
    {q : List String} {c : Bytes} :
    (q, c) ∈ rglobFiles rel (.dir ch) ↔
      (∃ n, (n, Fs.file c) ∈ ch ∧ q = rel ++ [n]) ∨ (q, c) ∈ rglobDirs rel ch := by
  rw [rglobFiles, List.mem_append]
  apply or_congr _ Iff.rfl
  rw [List.mem_filterMap]
  constructor
  · rintro ⟨⟨n, t⟩, hm, hf⟩
    cases t with
    | file cf =>
      simp only [Option.some.injEq, Prod.mk.injEq] at hf
      obtain ⟨rfl, rfl⟩ := hf
      exact ⟨n, hm, rfl⟩
    | dir ch' => simp at hf
  · rintro ⟨n, hm, rfl⟩
    exact ⟨(n, Fs.file c), hm, rfl⟩

theorem lookupChild_mem {ch : List (String × Fs)} {n : String} {e : Fs}
    (h : lookupChild ch n = some e) : (n, e) ∈ ch := by
  unfold lookupChild at h
  cases hf : ch.find? (fun e => e.1 == n) with
  | none => rw [hf] at h; cases h
  | some a =>
    rw [hf] at h
    obtain ⟨k, sub⟩ := a
    have hp : k == n := by simpa using List.find?_some hf
    have hm := List.mem_of_find?_eq_some hf
    obtain rfl : sub = e := by simpa using h
    obtain rfl : k = n := by simpa using hp
    exact hm

theorem lookupChild_of_mem_nodup {ch : List (String × Fs)}
    (hnd : (ch.map Prod.fst).Nodup) {n : String} {e : Fs}
    (h : (n, e) ∈ ch) : lookupChild ch n = some e := by
  induction ch with
  | nil => cases h
  | cons e0 rest ih =>
    obtain ⟨k, sub⟩ := e0
    rw [lookupChild_cons]
    rcases List.mem_cons.mp h with h0 | h0
    · obtain ⟨rfl, rfl⟩ := Prod.mk.injEq .. ▸ h0.symm
      simp
    · have hn : n ∈ rest.map Prod.fst := by
        have : (n, e).1 ∈ rest.map Prod.fst := List.mem_map_of_mem Prod.fst h0
        simpa using this
      have hnd' : (k :: rest.map Prod.fst).Nodup := hnd
      have hk : ¬ k = n := fun hh => (List.nodup_cons.mp hnd').1 (hh ▸ hn)
      rw [if_neg hk]
      exact ih (List.nodup_cons.mp hnd').2 h0

theorem resolveFile_file_nil {c : Bytes} : resolveFile (.file c) [] = some c := rfl

/-- Soundness of the walker: under sibling-name wellformedness, every
yielded pair is a file of the tree, resolvable at the yielded path. -/
theorem walk_resolve (excl : List (List String)) :
    ∀ t : Fs, Fs.wf t = true → ∀ rel q c,
      (q, c) ∈ walkFiles excl rel t →
      ∃ s, s ≠ [] ∧ q = rel ++ s ∧ resolveFile t s = some c := by
  intro t
  induction t using Fs.inductionOn with
  | hfile c => intro _ rel q c' hq; simp [walkFiles] at hq
  | hdir ch ihch =>
    intro hwf rel q c hq
    obtain ⟨hnd, hch⟩ := Fs.wf_dir.mp hwf
    rcases mem_walkFiles_dir.mp hq with ⟨n, hn, _, rfl⟩ | hd
    · refine ⟨[n], by simp, rfl, ?_⟩
      rw [resolveFile_dir_cons, lookupChild_of_mem_nodup hnd hn]
      exact resolveFile_file_nil
    · rcases mem_walkDirs.mp hd with ⟨m, ch', hmem, _, hq'⟩
      obtain ⟨s, hsne, hqs, hres⟩ :=
        ihch (m, .dir ch') hmem (hch _ hmem) (rel ++ [m]) q c hq'
      refine ⟨m :: s, by simp, by rw [hqs]; simp, ?_⟩
      rw [resolveFile_dir_cons, lookupChild_of_mem_nodup hnd hmem]
      exact hres

/-- Soundness of `rglob`: same statement for the unfiltered traversal. -/
theorem rglob_resolve :
    ∀ t : Fs, Fs.wf t = true → ∀ rel q c,
      (q, c) ∈ rglobFiles rel t →
      ∃ s, s ≠ [] ∧ q = rel ++ s ∧ resolveFile t s = some c := by
  intro t
  induction t using Fs.inductionOn with
  | hfile c => intro _ rel q c' hq; simp [rglobFiles] at hq
  | hdir ch ihch =>
    intro hwf rel q c hq
    obtain ⟨hnd, hch⟩ := Fs.wf_dir.mp hwf
    rcases mem_rglobFiles_dir.mp hq with ⟨n, hn, rfl⟩ | hd
    · refine ⟨[n], by simp, rfl, ?_⟩
      rw [resolveFile_dir_cons, lookupChild_of_mem_nodup hnd hn]
      exact resolveFile_file_nil
    · rcases mem_rglobDirs.mp hd with ⟨m, ch', hmem, hq'⟩
      obtain ⟨s, hsne, hqs, hres⟩ :=
        ihch (m, .dir ch') hmem (hch _ hmem) (rel ++ [m]) q c hq'
      refine ⟨m :: s, by simp, by rw [hqs]; simp, ?_⟩
      rw [resolveFile_dir_cons, lookupChild_of_mem_nodup hnd hmem]
      exact hres

/-- Completeness of `rglob`: every resolvable file is collected. -/
theorem resolve_rglob :
    ∀ (s : List String) (t : Fs) (c : Bytes), s ≠ [] → resolveFile t s = some c →
      ∀ rel, (rel ++ s, c) ∈ rglobFiles rel t := by
  intro s
  induction s with
  | nil => intro t c h; exact absurd rfl h
  | cons n s' ih =>
    intro t c _ hres rel
    cases t with
    | file cf => rw [resolveFile_file_cons] at hres; cases hres
    | dir ch =>
      rw [resolveFile_dir_cons] at hres
      cases hl : lookupChild ch n with
      | none => rw [hl] at hres; cases hres
      | some t' =>
        rw [hl] at hres
        replace hres : resolveFile t' s' = some c := hres
        have hmem : (n, t') ∈ ch := lookupChild_mem hl
        cases s' with
        | nil =>
          obtain rfl : t' = .file c := by
            cases t' with
            | file cf =>
              rw [resolveFile_file_nil] at hres
              rw [Option.some.inj hres]
            | dir ch' => rw [resolveFile_dir_nil] at hres; cases hres
          apply mem_rglobFiles_dir.mpr
          exact Or.inl ⟨n, hmem, rfl⟩
        | cons x s'' =>
          cases t' with
          | file cf => rw [resolveFile_file_cons] at hres; cases hres
          | dir ch' =>
            apply mem_rglobFiles_dir.mpr
            refine Or.inr (mem_rglobDirs.mpr ⟨n, ch', hmem, ?_⟩)
            have := ih (.dir ch') c (by simp) hres (rel ++ [n])
            simpa [List.append_assoc] using this

theorem nodeAt_of_resolve {t : Fs} {q : List String} {c : Bytes}
    (h : resolveFile t q = some c) : nodeAt t q = some (.file c) := by
  unfold resolveFile at h
  cases hn : nodeAt t q with
  | none => rw [hn] at h; cases h
  | some t' =>
    rw [hn] at h
    cases t' with
    | file cf =>
      replace h : cf = c := Option.some.inj h
      rw [h]
    | dir ch => cases h

/-- A resolvable file admits no resolvable file strictly below it. -/
theorem resolve_of_strict_ext {t : Fs} {q q' : List String} {c : Bytes}
    (h : resolveFile t q = some c) (hpre : q <+: q') (hne : q ≠ q') :
    resolveFile t q' = none := by
  obtain ⟨r, rfl⟩ := hpre
  have hr : r ≠ [] := by rintro rfl; exact hne (by simp)
  unfold resolveFile
  rw [nodeAt_append, nodeAt_of_resolve h]
  cases r with
  | nil => exact absurd rfl hr
  | cons x r' => rfl

/-! ### The backup bundle tree -/

theorem wf_buildPairs : ∀ (L : List (List String × Bytes)) (t : Fs),
    Fs.wf t = true → Fs.wf (buildPairs t L) = true := by
  intro L
  induction L with
  | nil => intro t h; exact h
  | cons pc L ih =>
    intro t h
    obtain ⟨p, c⟩ := pc
    simp only [buildPairs, List.foldl_cons] at ih ⊢
    exact ih _ (wf_insertAt p c t h)

theorem foldl_insert_obs : ∀ (L : List (List String × Bytes)) (T0 : Fs) (o : String),
    L.foldl (fun acc qc => insertAt (o :: qc.1) qc.2 acc) (.dir [(o, T0)]) =
      .dir [(o, buildPairs T0 L)] := by
  intro L
  induction L with
  | nil => intro T0 o; rfl
  | cons pc L ih =>
    intro T0 o
    obtain ⟨p, c⟩ := pc
    simp only [List.foldl_cons]
    have hstep : insertAt (o :: p) c (.dir [(o, T0)]) = .dir [(o, insertAt p c T0)] := by
      rw [insertAt, upsertChild, if_pos rfl]
    rw [hstep, ih (insertAt p c T0) o]
    simp only [buildPairs, List.foldl_cons]

theorem foldl_insert_obs_of_ne_nil :
    ∀ (L : List (List String × Bytes)) (o : String), L ≠ [] →
      L.foldl (fun acc qc => insertAt (o :: qc.1) qc.2 acc) (.dir []) =
        .dir [(o, buildPairs (.dir []) L)] := by
  intro L o h
  cases L with
  | nil => exact absurd rfl h
  | cons pc L' =>
    obtain ⟨p, c⟩ := pc
    rw [List.foldl_cons]
    have hstep : insertAt (o :: p) c (.dir []) = .dir [(o, insertAt p c (.dir []))] := by
      rw [insertAt]; rfl
    rw [hstep, foldl_insert_obs]
    simp only [buildPairs, List.foldl_cons]

/-! ### Claim C1 — local backup / restore round trip

The claim as frozen says the round trip yields a config root whose
relative file set is *identical* to the walker's output.  What holds
on the code: the pair list applied by the restore is exactly the
walker's backup-time output (same relative paths, byte-identical
contents), and a config root that starts empty therefore ends with
exactly that file set; but the restore never clears the config root,
so files that the backup excluded (caches, logs, hidden directories,
`.tmp`/`.lock` files) survive in a pre-existing config root and the
resulting file set can strictly exceed the walker's output. -/

/-- The config tree used by the C1 counterexample and witness: one
ordinary file `a` and one cache file `cache/x` (excluded by default
flags). -/
def cfgTreeC1 : Fs := .dir [("a", .file [1]), ("cache", .dir [("x", .file [2])])]

/-- C1 counterexample: back up `cfgTreeC1` under default flags and
restore the produced bundle into the unchanged config root.  The
restored pair list is exactly the walker's output `[a ↦ [1]]`, but the
excluded file `cache/x` is still present in the config root afterward,
while it is not in the walker's output — the resulting relative file
set is not identical to the walker's output. -/
theorem claim_C1_counterexample :
    walkFiles (excludedDirs false false) [] cfgTreeC1 = [(["a"], [1])] ∧
      restoreFromFolder "obs-config-host-20240101-000000"
        (createLocalBackupTree false false cfgTreeC1) = .ok [(["a"], [1])] ∧
      resolveFile (applyRestorePairs cfgTreeC1 [(["a"], [1])]) ["cache", "x"] = some [2] ∧
      ¬ ((["cache", "x"], [2]) ∈ walkFiles (excludedDirs false false) [] cfgTreeC1) := by
  refine ⟨by decide, by rfl, by rfl, by decide⟩

/-- C1 (amended): for every wellformed config tree and exclusion
flags, restoring from the bundle produced by a local backup applies
exactly the walker's backup-time pairs: the restored pair list has the
same relative file set with byte-for-byte equal contents, and a config
root that is empty at restore time ends up with exactly that file set.
(When the walk yields nothing, no bundle directory is created on disk
and the restore fails on validation instead.) -/
theorem claim_C1_roundtrip :
    ∀ (il ic : Bool) (nm : String) (t : Fs), Fs.wf t = true →
      (walkFiles (excludedDirs il ic) [] t = [] →
        restoreFromFolder nm (createLocalBackupTree il ic t) =
          .error "Invalid backup folder.") ∧
      (walkFiles (excludedDirs il ic) [] t ≠ [] →
        ∃ P, restoreFromFolder nm (createLocalBackupTree il ic t) = .ok P ∧
          (∀ q c, ((q, c) ∈ P ↔ (q, c) ∈ walkFiles (excludedDirs il ic) [] t)) ∧
          (∀ q c, resolveFile (applyRestorePairs (.dir []) P) q = some c ↔
            (q, c) ∈ walkFiles (excludedDirs il ic) [] t)) := by
  intro il ic nm t hwf
  constructor
  · intro hW
    rw [createLocalBackupTree, hW]
    rfl
  · intro hW
    -- facts about the walker output
    have hWres : ∀ q c, (q, c) ∈ walkFiles (excludedDirs il ic) [] t →
        resolveFile t q = some c := by
      intro q c hqc
      obtain ⟨s, _, hqs, hres⟩ := walk_resolve _ t hwf [] q c hqc
      rw [List.nil_append] at hqs
      rw [hqs]
      exact hres
    have hWne : ∀ p c, (p, c) ∈ walkFiles (excludedDirs il ic) [] t → p ≠ [] := by
      intro p c h
      obtain ⟨s, hsne, hqs, _⟩ := walk_resolve _ t hwf [] p c h
      rw [List.nil_append] at hqs
      rw [hqs]
      exact hsne
    have hWfun : ∀ p c c', (p, c) ∈ walkFiles (excludedDirs il ic) [] t →
        (p, c') ∈ walkFiles (excludedDirs il ic) [] t → c = c' := by
      intro p c c' h h'
      have h1 := hWres p c h
      have h2 := hWres p c' h'
      rw [h1] at h2
      exact Option.some.inj h2
    have hWpf : ∀ p c p' c', (p, c) ∈ walkFiles (excludedDirs il ic) [] t →
        (p', c') ∈ walkFiles (excludedDirs il ic) [] t → p <+: p' → p = p' := by
      intro p c p' c' h h' hpre
      by_contra hne
      have h2 := hWres p' c' h'
      rw [resolve_of_strict_ext (hWres p c h) hpre hne] at h2
      cases h2
    -- the bundle tree
    have hC : createLocalBackupTree il ic t =
        some (.dir [("obs-studio",
          buildPairs (.dir []) (walkFiles (excludedDirs il ic) [] t))]) := by
      rw [createLocalBackupTree,
        if_neg (by simpa [List.isEmpty_iff] using hW),
        foldl_insert_obs_of_ne_nil _ _ hW]
    have hwfT : Fs.wf (buildPairs (.dir []) (walkFiles (excludedDirs il ic) [] t)) = true :=
      wf_buildPairs _ _ (by decide)
    -- the restored pair list is the rglob of the bundle's inner tree
    have hPW : ∀ q c,
        ((q, c) ∈ rglobFiles []
            (buildPairs (.dir []) (walkFiles (excludedDirs il ic) [] t)) ↔
          (q, c) ∈ walkFiles (excludedDirs il ic) [] t) := by
      intro q c
      constructor
      · intro hqc
        obtain ⟨s, _, hqs, hres⟩ := rglob_resolve _ hwfT [] q c hqc
        rw [List.nil_append] at hqs
        subst hqs
        exact (resolve_buildPairs_iff _ hWne hWfun hWpf q c).mp hres
      · intro hqc
        have hres := (resolve_buildPairs_iff _ hWne hWfun hWpf q c).mpr hqc
        have := resolve_rglob q _ c (hWne q c hqc) hres []
        simpa using this
    have hPne : ∀ p c, (p, c) ∈ rglobFiles []
        (buildPairs (.dir []) (walkFiles (excludedDirs il ic) [] t)) → p ≠ [] :=
      fun p c h => hWne p c ((hPW p c).mp h)
    have hPfun : ∀ p c c', (p, c) ∈ rglobFiles []
          (buildPairs (.dir []) (walkFiles (excludedDirs il ic) [] t)) →
        (p, c') ∈ rglobFiles []
          (buildPairs (.dir []) (walkFiles (excludedDirs il ic) [] t)) → c = c' :=
      fun p c c' h h' => hWfun p c c' ((hPW p c).mp h) ((hPW p c').mp h')
    have hPpf : ∀ p c p' c', (p, c) ∈ rglobFiles []
          (buildPairs (.dir []) (walkFiles (excludedDirs il ic) [] t)) →
        (p', c') ∈ rglobFiles []
          (buildPairs (.dir []) (walkFiles (excludedDirs il ic) [] t)) →
        p <+: p' → p = p' :=
      fun p c p' c' h h' hpre => hWpf p c p' c' ((hPW p c).mp h) ((hPW p' c').mp h') hpre
    refine ⟨rglobFiles [] (buildPairs (.dir []) (walkFiles (excludedDirs il ic) [] t)),
      ?_, hPW, ?_⟩
    · rw [hC]
      have hroot : selectRestoreRoot nm
          (.dir [("obs-studio",
            buildPairs (.dir []) (walkFiles (excludedDirs il ic) [] t))]) =
          buildPairs (.dir []) (walkFiles (excludedDirs il ic) [] t) := by
        rw [selectRestoreRoot, lookupChild_cons, if_pos rfl]
      rw [restoreFromFolder, hroot]
    · intro q c
      have heq := resolve_applyRestorePairs_eq_build
        (rglobFiles [] (buildPairs (.dir []) (walkFiles (excludedDirs il ic) [] t)))
        (.dir []) (.dir []) (fun _ => rfl) q
      rw [heq, resolve_buildPairs_iff _ hPne hPfun hPpf q c]
      exact hPW q c

/-- C1 witness: instantiation of `claim_C1_roundtrip` on `cfgTreeC1`. -/
theorem claim_C1_witness :
    Fs.wf cfgTreeC1 = true ∧
      walkFiles (excludedDirs false false) [] cfgTreeC1 ≠ [] ∧
      (∃ P, restoreFromFolder "obs-config-host-20240101-000000"
          (createLocalBackupTree false false cfgTreeC1) = .ok P ∧
        (∀ q c, ((q, c) ∈ P ↔ (q, c) ∈ walkFiles (excludedDirs false false) [] cfgTreeC1)) ∧
        (∀ q c, resolveFile (applyRestorePairs (.dir []) P) q = some c ↔
          (q, c) ∈ walkFiles (excludedDirs false false) [] cfgTreeC1)) :=
  ⟨by decide, by decide,
    (claim_C1_roundtrip false false "obs-config-host-20240101-000000" cfgTreeC1
      (by decide)).2 (by decide)⟩

/-! ### Claim C5 — local restore source acceptance

The claim as frozen says a folder matching none of the three accepted
layouts makes the restore fail with `InvalidBackupSource`.  On the
code, `_restore_from_folder` raises only when the source path does not
exist or is not a directory ("Invalid backup folder."); when none of
the three layouts matches, `root` silently stays `folder` itself and
its files are restored as-is. -/

/-- C5 counterexample: an existing directory named `b` containing only
`x.txt` matches none of the three layouts, yet the restore does not
fail — it restores `x.txt` as if the folder were the bundle root. -/
theorem claim_C5_counterexample :
    restoreFromFolder "b" (some (.dir [("x.txt", .file [7])])) =
      .ok [(["x.txt"], [7])] := by
  rfl

/-- C5 (amended): for every existing directory source the restore
succeeds, with the root selected as: the folder's `obs-studio` entry
when present; else, when the folder is not itself named `obs-studio`,
the first `glob("*/obs-studio")` match when one exists; else the
folder itself (so a source matching none of the three layouts is
restored as-is rather than rejected).  The restore fails (with
"Invalid backup folder.") exactly when the source path does not exist
or is a file. -/
theorem claim_C5_source_layouts :
    (∀ nm : String, ∀ ch : List (String × Fs),
        restoreFromFolder nm (some (.dir ch)) =
          .ok (rglobFiles [] (selectRestoreRoot nm (.dir ch)))) ∧
      (∀ nm : String, restoreFromFolder nm none = .error "Invalid backup folder.") ∧
      (∀ nm : String, ∀ c : Bytes,
        restoreFromFolder nm (some (.file c)) = .error "Invalid backup folder.") ∧
      (∀ nm : String, ∀ ch : List (String × Fs), ∀ e : Fs,
        lookupChild ch "obs-studio" = some e → selectRestoreRoot nm (.dir ch) = e) ∧
      (∀ ch : List (String × Fs), lookupChild ch "obs-studio" = none →
        selectRestoreRoot "obs-studio" (.dir ch) = .dir ch) ∧
      (∀ nm : String, ∀ ch : List (String × Fs), ∀ e : Fs, nm ≠ "obs-studio" →
        lookupChild ch "obs-studio" = none → globStarObsStudio ch = some e →
        selectRestoreRoot nm (.dir ch) = e) ∧
      (∀ nm : String, ∀ ch : List (String × Fs), nm ≠ "obs-studio" →
        lookupChild ch "obs-studio" = none → globStarObsStudio ch = none →
        selectRestoreRoot nm (.dir ch) = .dir ch) := by
  refine ⟨?_, ?_, ?_, ?_, ?_, ?_, ?_⟩
  · intro nm ch; rfl
  · intro nm; rfl
  · intro nm c; rfl
  · intro nm ch e h; rw [selectRestoreRoot, h]
  · intro ch h
    rw [selectRestoreRoot, h]
    simp
  · intro nm ch e hnm h hg
    rw [selectRestoreRoot, h, if_pos hnm, hg]
  · intro nm ch hnm h hg
    rw [selectRestoreRoot, h, if_pos hnm, hg]

/-- C5 witness: instantiation of `claim_C5_source_layouts` — the
one-level-of-indirection layout `sub/obs-studio/f` selects the nested
`obs-studio` directory as root. -/
theorem claim_C5_witness :
    ("backups" : String) ≠ "obs-studio" ∧
      lookupChild [("sub", Fs.dir [("obs-studio", Fs.dir [("f", Fs.file [3])])])]
        "obs-studio" = none ∧
      globStarObsStudio [("sub", Fs.dir [("obs-studio", Fs.dir [("f", Fs.file [3])])])] =
        some (.dir [("f", .file [3])]) ∧
      selectRestoreRoot "backups"
        (.dir [("sub", Fs.dir [("obs-studio", Fs.dir [("f", Fs.file [3])])])]) =
        .dir [("f", .file [3])] :=
  ⟨by decide, by rfl, by rfl,
    claim_C5_source_layouts.2.2.2.2.2.1 "backups"
      [("sub", Fs.dir [("obs-studio", Fs.dir [("f", Fs.file [3])])])]
      (.dir [("f", .file [3])]) (by decide) (by rfl) (by rfl)⟩

/-! ## Claim C2 — the pre-restore snapshot

`_restore_pairs_to_config` runs `cfg.mkdir(parents=True, exist_ok=True)`
*before* calling `_backup_current_config`, and `_extract_zip_to_config`
creates the config root (`if not cfg.exists(): cfg.mkdir(...)`) before
its own snapshot block, so the `if not cfg.exists(): return` guard
inside `_backup_current_config` (and the `if cfg.exists():` guard of
the zip path) always sees an existing directory.  The snapshot phase
is modelled over two booleans: whether the config root existed at the
start of the restore, and whether the `shutil.copytree` snapshot copy
raises. -/

/-- Observable outcome of the snapshot phase of a restore: how many
`<app>.before-restore-<timestamp>` directories were created, whether a
warning was logged, and whether the restore proceeded to the
(destructive) overwrite/extract step. -/
structure RestoreSnapshotOutcome where
  snapshotsCreated : Nat
  warned : Bool
  proceeded : Bool
  deriving DecidableEq

/-- `_backup_current_config()`: return immediately when the config
root does not exist at call time; otherwise copy it to
`obs-studio.before-restore-<timestamp>`, downgrading a copy failure to
a warning (`"Unable to backup previous state"`). -/
def backupCurrentConfig (cfgExistsNow copyFails : Bool) : Nat × Bool :=
  if !cfgExistsNow then (0, false)
  else if copyFails then (0, true)
  else (1, false)

/-- The snapshot phase of `_restore_pairs_to_config` (used by both the
local-folder and the remote restore): `cfg.mkdir(parents=True,
exist_ok=True)` runs first, so the config root exists — regardless of
`cfgExistsAtStart` — by the time `_backup_current_config` checks it;
the overwrite pass runs afterwards in every case. -/
def restorePairsSnapshot (cfgExistsAtStart copyFails : Bool) : RestoreSnapshotOutcome :=
  let cfgExistsAfterMkdir := true
  let nw := backupCurrentConfig cfgExistsAfterMkdir copyFails
  ⟨nw.1, nw.2, true⟩

/-- The snapshot phase of `_extract_zip_to_config` (the zip restore):
`if not cfg.exists(): cfg.mkdir(parents=True, exist_ok=True)` runs
first, then the `try: if cfg.exists(): copytree ... except: warn`
block, then the extraction proceeds in every case. -/
def extractZipSnapshot (cfgExistsAtStart copyFails : Bool) : RestoreSnapshotOutcome :=
  let cfgExistsAfterMkdir := true
  let nw := backupCurrentConfig cfgExistsAfterMkdir copyFails
  ⟨nw.1, nw.2, true⟩

/-- C2: on all three restore paths the config root is created *before*
the snapshot existence check, so exactly one snapshot directory is
created even when the config root did not pre-exist (a copy of the
freshly created empty directory) — the claim's (and the dead guard's)
"zero snapshots when the config root does not pre-exist" is violated;
the claim's other parts hold: exactly one snapshot when it does
pre-exist, and a failed snapshot copy warns without aborting. -/
theorem claim_C2_snapshot_always_created :
    restorePairsSnapshot false false = ⟨1, false, true⟩ ∧
      extractZipSnapshot false false = ⟨1, false, true⟩ ∧
      restorePairsSnapshot true false = ⟨1, false, true⟩ ∧
      extractZipSnapshot true false = ⟨1, false, true⟩ ∧
      restorePairsSnapshot true true = ⟨0, true, true⟩ ∧
      restorePairsSnapshot false true = ⟨0, true, true⟩ ∧
      backupCurrentConfig false false = (0, false) := by
  decide

/-! ## Claim C6 — locating the configuration root (`get_obs_config_dir`) -/

/-- The ambient OS state read by `get_obs_config_dir` and by the
existence check at the top of `iter_obs_files`: the platform string,
the relevant environment variables (`none` = unset; Python treats an
empty string as falsy too), the home directory, and which directories
exist on disk.  Paths are component lists whose head is the
environment-derived base. -/
structure OsEnv where
  platform : String
  appdata : Option String
  xdgConfigHome : Option String
  home : String
  dirExists : List String → Bool

/-- Python truthiness of an `os.environ.get(...)` result. -/
def envTruthy : Option String → Bool
  | none => false
  | some s => !(s == "")

/-- `get_obs_config_dir()` from the source: on `win*` platforms
`APPDATA` is required (`RuntimeError` when falsy); `darwin` and the
XDG-aware fallback branches never fail. -/
def getObsConfigDir (e : OsEnv) : Except String (List String) :=
  if pyStartsWith "win" e.platform then
    match e.appdata with
    | some s =>
      if s == "" then .error "APPDATA not set; cannot locate OBS config"
      else .ok [s, "obs-studio"]
    | none => .error "APPDATA not set; cannot locate OBS config"
  else if e.platform == "darwin" then
    .ok [e.home, "Library", "Application Support", "obs-studio"]
  else
    match e.xdgConfigHome with
    | some s =>
      if s == "" then .ok [e.home, ".config", "obs-studio"] else .ok [s, "obs-studio"]
    | none => .ok [e.home, ".config", "obs-studio"]

/-- The preamble of `iter_obs_files`: resolve the config dir, then
`raise FileNotFoundError` when it does not exist on disk. -/
def locateConfigDirChecked (e : OsEnv) : Except String (List String) :=
  match getObsConfigDir e with
  | .error m => .error m
  | .ok cfg => if e.dirExists cfg then .ok cfg else .error "OBS config not found"

/-- The deterministic platform-specific path formula. -/
def resolvedConfigPath (e : OsEnv) : List String :=
  if pyStartsWith "win" e.platform then [e.appdata.getD "", "obs-studio"]
  else if e.platform == "darwin" then
    [e.home, "Library", "Application Support", "obs-studio"]
  else
    match e.xdgConfigHome with
    | some s => if s == "" then [e.home, ".config", "obs-studio"] else [s, "obs-studio"]
    | none => [e.home, ".config", "obs-studio"]

/-- C6: the locator (`get_obs_config_dir` plus the existence check its
caller `iter_obs_files` performs) fails in exactly two cases — the
platform-required environment variable (`APPDATA`, on `win*`) is
absent/empty, or the resolved directory does not exist on disk — and
otherwise returns the deterministic platform-specific path. -/
theorem claim_C6_config_locator :
    ∀ e : OsEnv,
      ((∃ m, getObsConfigDir e = .error m) ↔
        (pyStartsWith "win" e.platform = true ∧ envTruthy e.appdata = false)) ∧
      (¬ (pyStartsWith "win" e.platform = true ∧ envTruthy e.appdata = false) →
        getObsConfigDir e = .ok (resolvedConfigPath e)) ∧
      (∀ p, getObsConfigDir e = .ok p → e.dirExists p = true →
        locateConfigDirChecked e = .ok p) ∧
      (∀ p, getObsConfigDir e = .ok p → e.dirExists p = false →
        locateConfigDirChecked e = .error "OBS config not found") ∧
      (∀ m, getObsConfigDir e = .error m → locateConfigDirChecked e = .error m) := by
  intro e
  obtain ⟨plat, appd, xdg, home, dex⟩ := e
  refine ⟨?_, ?_, ?_, ?_, ?_⟩
  · by_cases hw : pyStartsWith "win" plat
    · cases appd with
      | none => simp [getObsConfigDir, hw, envTruthy]
      | some s =>
        by_cases hs : s == ""
        · simp [getObsConfigDir, hw, hs, envTruthy]
        · simp [getObsConfigDir, hw, hs, envTruthy]
    · by_cases hd : plat == "darwin"
      · simp [getObsConfigDir, hw, hd, envTruthy]
      · cases xdg with
        | none => simp [getObsConfigDir, hw, hd, envTruthy]
        | some s =>
          by_cases hs : s == ""
          · simp [getObsConfigDir, hw, hd, hs, envTruthy]
          · simp [getObsConfigDir, hw, hd, hs, envTruthy]
  · intro h
    by_cases hw : pyStartsWith "win" plat
    · cases appd with
      | none => exact absurd ⟨hw, by simp [envTruthy]⟩ h
      | some s =>
        by_cases hs : s == ""
        · exact absurd ⟨hw, by simp [envTruthy, hs]⟩ h
        · simp [getObsConfigDir, resolvedConfigPath, hw, hs]
    · by_cases hd : plat == "darwin"
      · simp [getObsConfigDir, resolvedConfigPath, hw, hd]
      · cases xdg with
        | none => simp [getObsConfigDir, resolvedConfigPath, hw, hd]
        | some s =>
          by_cases hs : s == ""
          · simp [getObsConfigDir, resolvedConfigPath, hw, hd, hs]
          · simp [getObsConfigDir, resolvedConfigPath, hw, hd, hs]
  · intro p hp hex
    rw [locateConfigDirChecked, hp]
    simp [show dex p = true from hex]
  · intro p hp hex
    rw [locateConfigDirChecked, hp]
    simp [show dex p = false from hex]
  · intro m hm
    rw [locateConfigDirChecked, hm]

/-- C6 witness: instantiation of `claim_C6_config_locator` on a
concrete Linux environment with `XDG_CONFIG_HOME` set and the resolved
directory present. -/
theorem claim_C6_witness :
    getObsConfigDir
        ⟨"linux", none, some "/xdg", "/home/u", fun p => p == ["/xdg", "obs-studio"]⟩ =
        .ok (resolvedConfigPath
          ⟨"linux", none, some "/xdg", "/home/u", fun p => p == ["/xdg", "obs-studio"]⟩) ∧
      resolvedConfigPath
        ⟨"linux", none, some "/xdg", "/home/u", fun p => p == ["/xdg", "obs-studio"]⟩ =
        ["/xdg", "obs-studio"] :=
  ⟨(claim_C6_config_locator
      ⟨"linux", none, some "/xdg", "/home/u", fun p => p == ["/xdg", "obs-studio"]⟩).2.1
      (by decide),
   by decide⟩

/-! ## Claim C7 — `GitHubClient.list_dir` -/

/-- A parsed GitHub contents-API entry as consumed by the callers of
`list_dir`: its `type` field (`"dir"` / `"file"`), its repo-relative
`path`, and its `name`. -/
structure GhEntry where
  typ : String
  path : String
  name : String
  deriving DecidableEq

/-- The parsed JSON body of a 2xx contents response: a list (directory
listing) or a single object (the root-is-a-file edge case). -/
inductive GhListBody where
  | arr (items : List GhEntry)
  | obj (item : GhEntry)
  deriving DecidableEq

/-- The outcome of one `urlopen` call: a 2xx response with a parsed
body, or an `HTTPError` carrying the status code and the response
detail (every non-2xx status that `urllib` does not transparently
redirect surfaces as `HTTPError`). -/
inductive GhHttp (β : Type) where
  | success (body : β)
  | httpError (code : Nat) (detail : String)
  deriving DecidableEq

/-- `GitHubClient.list_dir`: a list body is returned as-is, a single
object is wrapped into a one-element list, a 404 `HTTPError` yields
`[]`, and any other `HTTPError` is re-raised as
`RuntimeError("GitHub list failed: <code> <detail>")`. -/
def listDir (resp : GhHttp GhListBody) : Except String (List GhEntry) :=
  match resp with
  | .success (.arr items) => .ok items
  | .success (.obj item) => .ok [item]
  | .httpError code detail =>
    if code == 404 then .ok []
    else .error ("GitHub list failed: " ++ toString code ++ " " ++ detail)

/-- C7: `list_dir` returns the empty sequence on a 404 and never
raises in that case; a single-object body is normalized to a
one-element sequence; a list body is passed through; and any other
non-2xx response fails with the `GitHub list failed` error. -/
theorem claim_C7_list_dir :
    (∀ d : String, listDir (.httpError 404 d) = .ok []) ∧
      (∀ it : GhEntry, listDir (.success (.obj it)) = .ok [it]) ∧
      (∀ l : List GhEntry, listDir (.success (.arr l)) = .ok l) ∧
      (∀ (code : Nat) (d : String), code ≠ 404 →
        listDir (.httpError code d) =
          .error ("GitHub list failed: " ++ toString code ++ " " ++ d)) := by
  refine ⟨fun d => rfl, fun it => rfl, fun l => rfl, ?_⟩
  intro code d h
  rw [listDir, if_neg (by simpa using h)]

/-- C7 witness: instantiation of `claim_C7_list_dir` on a 500. -/
theorem claim_C7_witness :
    (500 : Nat) ≠ 404 ∧
      listDir (.httpError 500 "boom") =
        .error ("GitHub list failed: " ++ toString (500 : Nat) ++ " " ++ "boom") :=
  ⟨by decide, claim_C7_list_dir.2.2.2 500 "boom" (by decide)⟩

/-! ## Claim C8 — `GitHubClient.list_user_repos` pagination -/

/-- `GitHubClient.list_user_repos`: starting at `page`, fetch pages
until an empty page breaks the loop and the accumulated repositories
(here just their names) are returned; an `HTTPError` on *any* page is
re-raised as `RuntimeError("GitHub repo list failed: ...")`, which
discards everything accumulated so far.  The unbounded `while True`
loop is modelled with fuel; `none` means the fuel ran out before an
empty page or an error was reached. -/
def listUserRepos (pages : Nat → GhHttp (List String)) :
    Nat → Nat → List String → Option (Except String (List String))
  | 0, _, _ => none
  | fuel + 1, page, acc =>
    match pages page with
    | .success [] => some (.ok acc)
    | .success data => listUserRepos pages fuel (page + 1) (acc ++ data)
    | .httpError code detail =>
      some (.error ("GitHub repo list failed: " ++ toString code ++ " " ++ detail))

/-- Oracle for the C8 counterexample and witness: page 1 succeeds with
one repository, every later page fails with a 500. -/
def pagesC8 : Nat → GhHttp (List String) :=
  fun n => if n == 1 then .success ["owner/repo1"] else .httpError 500 "boom"

/-- C8 counterexample: with one successfully fetched page followed by
a failing page, `list_user_repos` raises (is an error) instead of
degrading to a warning and yielding the partially accumulated
one-repository list. -/
theorem claim_C8_counterexample :
    listUserRepos pagesC8 5 1 [] =
      some (.error ("GitHub repo list failed: " ++ toString (500 : Nat) ++ " " ++ "boom")) ∧
      listUserRepos pagesC8 5 1 [] ≠ some (.ok ["owner/repo1"]) := by
  constructor
  · rfl
  · decide

/-- C8 (amended): an `HTTPError` on any page — even after earlier
pages succeeded — aborts `list_user_repos` with the
`GitHub repo list failed` error, discarding the accumulated repository
list; no warning is logged and no partial list is returned.  (The
surrounding `_on_fetch_repos` callback catches the exception and logs
an error.) -/
theorem claim_C8_page_failure_aborts :
    ∀ (pages : Nat → GhHttp (List String)) (k : Nat) (code : Nat) (detail : String)
      (fuel page : Nat) (acc : List String),
      page ≤ k → fuel > k - page →
      pages k = .httpError code detail →
      (∀ j, page ≤ j → j < k → ∃ l, l ≠ [] ∧ pages j = .success l) →
      listUserRepos pages fuel page acc =
        some (.error ("GitHub repo list failed: " ++ toString code ++ " " ++ detail)) := by
  intro pages k code detail fuel
  induction fuel with
  | zero => intro page acc hpk hfuel _ _; omega
  | succ fuel ih =>
    intro page acc hpk hfuel hk hprev
    by_cases hpage : page = k
    · subst hpage
      simp only [listUserRepos, hk]
    · have hlt : page < k := lt_of_le_of_ne hpk hpage
      obtain ⟨l, hlne, hl⟩ := hprev page le_rfl hlt
      cases l with
      | nil => exact absurd rfl hlne
      | cons a l' =>
        simp only [listUserRepos, hl]
        exact ih (page + 1) (acc ++ a :: l') (by omega) (by omega) hk
          (fun j h1 h2 => hprev j (by omega) h2)

/-- C8 witness: instantiation of `claim_C8_page_failure_aborts` on the
concrete two-page oracle. -/
theorem claim_C8_witness :
    pagesC8 2 = .httpError 500 "boom" ∧
      listUserRepos pagesC8 5 1 [] =
        some (.error ("GitHub repo list failed: " ++ toString (500 : Nat) ++ " " ++ "boom")) :=
  ⟨by decide,
    claim_C8_page_failure_aborts pagesC8 2 500 "boom" 5 1 [] (by decide) (by decide)
      (by decide)
      (fun j h1 h2 => by
        have hj : j = 1 := by omega
        subst hj
        exact ⟨["owner/repo1"], by decide, by decide⟩)⟩

/-! ## Claim C9 — remote restore relative-path computation

`do_restore_remote` forms `base = sel_path.rstrip("/") + "/obs-studio"`
and its `_collect_pairs` computes each stored relative path by literal
length arithmetic: `rel = it["path"][len(base.strip("/")) + 1:]`.
Python strings are sequences of code points, modelled as `List Char`;
slicing `s[k:]` is `List.drop k`. -/

/-- The stripped character of `strip("/")`. -/
def isSlash (c0 : Char) : Bool := c0 == '/'

/-- Python `s.lstrip("/")`. -/
def lstripSlash (s : List Char) : List Char := s.dropWhile isSlash

/-- Python `s.rstrip("/")`. -/
def rstripSlash (s : List Char) : List Char := (s.reverse.dropWhile isSlash).reverse

/-- Python `s.strip("/")`. -/
def stripSlash (s : List Char) : List Char := lstripSlash (rstripSlash s)

/-- The remote root formed by `do_restore_remote`:
`base = sel_path.rstrip("/") + "/obs-studio"`. -/
def remoteBase (sel : List Char) : List Char := rstripSlash sel ++ ("/obs-studio".data)

theorem dropWhile_eq_self_of_length {p : Char → Bool} {l : List Char}
    (h : (l.dropWhile p).length = l.length) : l.dropWhile p = l := by
  cases l with
  | nil => rfl
  | cons a t =>
    rw [List.dropWhile_cons]
    by_cases hp : p a = true
    · exfalso
      rw [List.dropWhile_cons, if_pos hp] at h
      have hle := (List.dropWhile_sublist (p := p) (l := t)).length_le
      simp only [List.length_cons] at h
      omega
    · rw [if_neg hp]

theorem dropWhile_head_false {p : Char → Bool} {l : List Char} {a : Char} {t : List Char}
    (h : l.dropWhile p = a :: t) : p a = false := by
  induction l with
  | nil => cases h
  | cons b l' ih =>
    rw [List.dropWhile_cons] at h
    by_cases hp : p b = true
    · rw [if_pos hp] at h; exact ih h
    · rw [if_neg hp] at h
      obtain ⟨rfl, -⟩ := List.cons.injEq .. ▸ h
      simpa using hp

theorem dropWhile_append_of_head_false {p : Char → Bool} {a : Char} {u v : List Char}
    (h : p a = false) : (a :: u ++ v).dropWhile p = a :: u ++ v := by
  rw [List.cons_append, List.dropWhile_cons, if_neg (by simp [h])]

theorem lstripSlash_append (u v : List Char) :
    lstripSlash (u ++ v) =
      if lstripSlash u = [] then lstripSlash v else lstripSlash u ++ v := by
  induction u with
  | nil => simp [lstripSlash]
  | cons a u' ih =>
    by_cases hp : isSlash a = true
    · simp only [lstripSlash, List.cons_append, List.dropWhile_cons, hp, if_true]
      exact ih
    · simp only [lstripSlash, List.cons_append, List.dropWhile_cons, hp, if_false,
        Bool.false_eq_true]
      rw [if_neg (by simp)]

theorem rstripSlash_of_dropWhile_reverse {v : List Char}
    (h : v.reverse.dropWhile isSlash = v.reverse) : rstripSlash v = v := by
  rw [rstripSlash, h, List.reverse_reverse]

theorem dropWhile_reverse_of_rstripSlash {v : List Char}
    (h : rstripSlash v = v) : v.reverse.dropWhile isSlash = v.reverse := by
  rw [rstripSlash] at h
  calc v.reverse.dropWhile isSlash
      = ((v.reverse.dropWhile isSlash).reverse).reverse := by rw [List.reverse_reverse]
    _ = v.reverse := by rw [h]

theorem rstripSlash_append_self {u v : List Char} (hv : v ≠ [])
    (h : rstripSlash v = v) : rstripSlash (u ++ v) = u ++ v := by
  have hrev := dropWhile_reverse_of_rstripSlash h
  cases hc : v.reverse with
  | nil => exact absurd (by simpa using congrArg List.reverse hc) hv
  | cons c w =>
    rw [hc] at hrev
    have hcf : isSlash c = false := by
      by_contra hcc
      rw [List.dropWhile_cons, if_pos (by simpa using hcc)] at hrev
      have hle := (List.dropWhile_sublist (p := isSlash) (l := w)).length_le
      have := congrArg List.length hrev
      simp only [List.length_cons] at this
      omega
    apply rstripSlash_of_dropWhile_reverse
    rw [List.reverse_append, hc]
    exact dropWhile_append_of_head_false hcf

theorem stripSlash_eq_self_parts {x : List Char} (h : stripSlash x = x) :
    lstripSlash x = x ∧ rstripSlash x = x := by
  have hr : rstripSlash x = x := by
    have h1 : (stripSlash x).length ≤ (rstripSlash x).length :=
      (List.dropWhile_sublist (p := isSlash) (l := rstripSlash x)).length_le
    have h2 : (rstripSlash x).length ≤ x.length := by
      rw [rstripSlash]
      calc ((x.reverse.dropWhile isSlash).reverse).length
          = (x.reverse.dropWhile isSlash).length := by rw [List.length_reverse]
        _ ≤ x.reverse.length := (List.dropWhile_sublist ..).length_le
        _ = x.length := by rw [List.length_reverse]
    rw [h] at h1
    have hlen : (x.reverse.dropWhile isSlash).length = x.reverse.length := by
      have h3 : (rstripSlash x).length = x.length := by omega
      rw [rstripSlash, List.length_reverse] at h3
      rw [List.length_reverse]
      exact h3
    exact rstripSlash_of_dropWhile_reverse (dropWhile_eq_self_of_length hlen)
  refine ⟨?_, hr⟩
  have := h
  rw [stripSlash, hr] at this
  exact this

theorem lstripSlash_idem (s : List Char) : lstripSlash (lstripSlash s) = lstripSlash s :=
  List.dropWhile_idempotent isSlash s

/-- A path string in the canonical form the contents API returns
paths in: nonempty, no leading slash, no trailing slash. -/
def CanonStr (x : List Char) : Prop :=
  x ≠ [] ∧ lstripSlash x = x ∧ rstripSlash x = x

theorem canon_extend {x nm : List Char} (hx : CanonStr x) (hnm : nm ≠ [])
    (hns : ∀ c0 ∈ nm, ¬ c0 = '/') :
    stripSlash (x ++ '/' :: nm) = x ++ '/' :: nm ∧ CanonStr (x ++ '/' :: nm) := by
  obtain ⟨hne, hl, hr⟩ := hx
  have hrst : rstripSlash ('/' :: nm) = '/' :: nm := by
    cases hc : nm.reverse with
    | nil => exact absurd (by simpa using congrArg List.reverse hc) hnm
    | cons c w =>
      have hcm : c ∈ nm := by
        have : c ∈ nm.reverse := by rw [hc]; exact List.mem_cons_self ..
        simpa using this
      have hcf : isSlash c = false := by
        simp only [isSlash, beq_eq_false_iff_ne, ne_eq]
        exact hns c hcm
      apply rstripSlash_of_dropWhile_reverse
      rw [List.reverse_cons, hc]
      exact dropWhile_append_of_head_false hcf
  have hr2 : rstripSlash (x ++ '/' :: nm) = x ++ '/' :: nm :=
    rstripSlash_append_self (by simp) hrst
  have hl2 : lstripSlash (x ++ '/' :: nm) = x ++ '/' :: nm := by
    rw [lstripSlash_append, hl, if_neg hne]
  exact ⟨by rw [stripSlash, hr2, hl2], by simp, hl2, hr2⟩

theorem remoteBase_strip_canon (sel : List Char) :
    CanonStr (stripSlash (remoteBase sel)) := by
  have hD : rstripSlash ("/obs-studio".data) = "/obs-studio".data := by decide
  have hrb : rstripSlash (remoteBase sel) = remoteBase sel :=
    rstripSlash_append_self (by decide) hD
  have hstrip : stripSlash (remoteBase sel) = lstripSlash (remoteBase sel) := by
    rw [stripSlash, hrb]
  rw [hstrip, remoteBase, lstripSlash_append]
  by_cases hu : lstripSlash (rstripSlash sel) = []
  · rw [if_pos hu]
    exact ⟨by decide, by decide, by decide⟩
  · rw [if_neg hu]
    refine ⟨?_, ?_, ?_⟩
    · intro hh
      have := congrArg List.length hh
      simp at this
    · rw [lstripSlash_append, lstripSlash_idem, if_neg hu]
    · exact rstripSlash_append_self (by decide) hD

/-- An entry of the remote store as `_collect_pairs` consumes it: its
`type` field and full repo path. -/
structure RItem where
  typ : List Char
  path : List Char

/-- `_collect_pairs` from `do_restore_remote`: an explicit stack of
directory paths, starting at the remote root `base`; each iteration
pops one path, lists it, pushes its subdirectories and, for each file,
reads the content and stores
`(it["path"][len(base.strip("/")) + 1:], data)`.  The `while` loop is
modelled with fuel (one unit per pop); the emitted pairs accumulate in
`acc` in encounter order. -/
def collectPairs (listDirR : List Char → List RItem) (getContent : List Char → Bytes)
    (base : List Char) :
    Nat → List (List Char) → List (List Char × Bytes) → List (List Char × Bytes)
  | 0, _, acc => acc
  | _ + 1, [], acc => acc
  | fuel + 1, p :: stack, acc =>
    collectPairs listDirR getContent base fuel
      (((listDirR p).filterMap
          (fun it => if it.typ = "dir".data then some it.path else none)).reverse ++ stack)
      (acc ++ (listDirR p).filterMap (fun it =>
        if it.typ = "file".data then
          some (it.path.drop ((stripSlash base).length + 1), getContent it.path)
        else none))

/-- Invariant of the traversal stack: every pending path is the
original `base`, or a canonical strict extension of the canonical
remote root. -/
def StackElemOK (base p : List Char) : Prop :=
  p = base ∨ (stripSlash p = p ∧ ∃ s, s ≠ [] ∧ p = stripSlash base ++ '/' :: s)

theorem child_ok {base p q nm : List Char} (hc : CanonStr (stripSlash base))
    (hp : StackElemOK base p) (hnm : nm ≠ []) (hns : ∀ c0 ∈ nm, ¬ c0 = '/')
    (hq : q = stripSlash p ++ '/' :: nm) :
    (∃ s, s ≠ [] ∧ q = stripSlash base ++ '/' :: s) ∧ stripSlash q = q := by
  rcases hp with rfl | ⟨hself, s, hsne, hps⟩
  · refine ⟨⟨nm, hnm, hq⟩, ?_⟩
    rw [hq]
    exact (canon_extend hc hnm hns).1
  · rw [hself] at hq
    have hpc : CanonStr p :=
      ⟨by rw [hps]; simp, (stripSlash_eq_self_parts hself).1,
        (stripSlash_eq_self_parts hself).2⟩
    refine ⟨⟨s ++ '/' :: nm, by simp, ?_⟩, ?_⟩
    · rw [hq, hps]
      simp
    · rw [hq]
      exact (canon_extend hpc hnm hns).1

theorem collectPairs_rel_correct
    (listDirR : List Char → List RItem) (getContent : List Char → Bytes)
    (sel : List Char)
    (Hserver : ∀ p it, it ∈ listDirR p →
      ∃ nm, nm ≠ [] ∧ (∀ c0 ∈ nm, ¬ c0 = '/') ∧
        it.path = stripSlash p ++ '/' :: nm) :
    ∀ (fuel : Nat) (stack : List (List Char)) (acc : List (List Char × Bytes)),
      (∀ p ∈ stack, StackElemOK (remoteBase sel) p) →
      (∀ rd ∈ acc, ∃ fp, rd.2 = getContent fp ∧
        fp = stripSlash (remoteBase sel) ++ '/' :: rd.1) →
      ∀ rd ∈ collectPairs listDirR getContent (remoteBase sel) fuel stack acc,
        ∃ fp, rd.2 = getContent fp ∧
          fp = stripSlash (remoteBase sel) ++ '/' :: rd.1 := by
  intro fuel
  induction fuel with
  | zero => intro stack acc _ hacc rd hrd; exact hacc rd hrd
  | succ fuel ih =>
    intro stack acc hstack hacc rd hrd
    cases stack with
    | nil => exact hacc rd hrd
    | cons p stack' =>
      rw [collectPairs] at hrd
      refine ih _ _ ?_ ?_ rd hrd
      · intro q hq
        rcases List.mem_append.mp hq with hq | hq
        · rw [List.mem_reverse] at hq
          rcases List.mem_filterMap.mp hq with ⟨it, hit, hmap⟩
          by_cases htyp : it.typ = "dir".data
          · rw [if_pos htyp] at hmap
            obtain rfl : it.path = q := Option.some.inj hmap
            obtain ⟨nm, hnm, hns, hpath⟩ := Hserver p it hit
            have hch := child_ok (remoteBase_strip_canon sel)
              (hstack p (List.mem_cons_self ..)) hnm hns hpath
            exact Or.inr ⟨hch.2, hch.1⟩
          · rw [if_neg htyp] at hmap; cases hmap
        · exact hstack q (List.mem_cons_of_mem _ hq)
      · intro rd' hrd'
        rcases List.mem_append.mp hrd' with hrd' | hrd'
        · exact hacc rd' hrd'
        · rcases List.mem_filterMap.mp hrd' with ⟨it, hit, hmap⟩
          by_cases htyp : it.typ = "file".data
          · rw [if_pos htyp] at hmap
            obtain rfl := Option.some.inj hmap
            obtain ⟨nm, hnm, hns, hpath⟩ := Hserver p it hit
            have hx : ∃ u, u ≠ [] ∧
                it.path = stripSlash (remoteBase sel) ++ '/' :: u := by
              rcases hstack p (List.mem_cons_self ..) with rfl | ⟨hself, s, hsne, hps⟩
              · exact ⟨nm, hnm, hpath⟩
              · rw [hself] at hpath
                refine ⟨s ++ '/' :: nm, by simp, ?_⟩
                rw [hpath, hps]
                simp
            obtain ⟨u, hune, hu⟩ := hx
            refine ⟨it.path, rfl, ?_⟩
            have hdrop : it.path.drop ((stripSlash (remoteBase sel)).length + 1) = u := by
              rw [hu,
                show stripSlash (remoteBase sel) ++ '/' :: u =
                  (stripSlash (remoteBase sel) ++ ['/']) ++ u from by simp,
                show (stripSlash (remoteBase sel)).length + 1 =
                  (stripSlash (remoteBase sel) ++ ['/']).length from by simp]
              exact List.drop_left _ _
            rw [show ((it.path.drop ((stripSlash (remoteBase sel)).length + 1),
                getContent it.path) : List Char × Bytes).1 =
              it.path.drop ((stripSlash (remoteBase sel)).length + 1) from rfl, hdrop]
            exact hu
          · rw [if_neg htyp] at hmap; cases hmap

/-- C9: during remote restore, for every file discovered under the
remote root, the stored relative path equals the file's full
repository path with the canonical remote-root prefix and its
separating slash removed — for *every* selected remote directory path
`sel`, including ones with leading or trailing slashes, provided the
remote store returns entry paths in canonical form extending the
(normalized) queried path, as the GitHub contents API does. -/
theorem claim_C9_remote_rel_paths :
    ∀ (listDirR : List Char → List RItem) (getContent : List Char → Bytes)
      (sel : List Char) (fuel : Nat),
      (∀ p it, it ∈ listDirR p →
        ∃ nm, nm ≠ [] ∧ (∀ c0 ∈ nm, ¬ c0 = '/') ∧
          it.path = stripSlash p ++ '/' :: nm) →
      ∀ rd ∈ collectPairs listDirR getContent (remoteBase sel) fuel
          [remoteBase sel] [],
        ∃ fp, rd.2 = getContent fp ∧
          fp = stripSlash (remoteBase sel) ++ '/' :: rd.1 := by
  intro listDirR getContent sel fuel Hserver rd hrd
  refine collectPairs_rel_correct listDirR getContent sel Hserver fuel
    [remoteBase sel] [] ?_ ?_ rd hrd
  · intro p hp
    rcases List.mem_singleton.mp hp with rfl
    exact Or.inl rfl
  · intro rd' h
    cases h

/-- The remote store of the C9 witness, with the selected directory
`/backups/b1/` (note the slash decorations): the backup contains
`global.ini` and `basic/scenes.json` under
`backups/b1/obs-studio`. -/
def listDirC9 (p : List Char) : List RItem :=
  if p = "/backups/b1/obs-studio".data then
    [⟨"dir".data, "backups/b1/obs-studio/basic".data⟩,
     ⟨"file".data, "backups/b1/obs-studio/global.ini".data⟩]
  else if p = "backups/b1/obs-studio/basic".data then
    [⟨"file".data, "backups/b1/obs-studio/basic/scenes.json".data⟩]
  else []

/-- C9 witness: instantiation of `claim_C9_remote_rel_paths` on the
concrete store — the file stored at relative path `basic/scenes.json`
is exactly the one at `backups/b1/obs-studio/basic/scenes.json`. -/
theorem claim_C9_witness :
    (("basic/scenes.json".data, ([1] : Bytes)) ∈
        collectPairs listDirC9 (fun _ => ([1] : Bytes))
          (remoteBase "/backups/b1/".data) 5 [remoteBase "/backups/b1/".data] []) ∧
      ∃ fp, ([1] : Bytes) = (fun _ => ([1] : Bytes)) fp ∧
        fp = stripSlash (remoteBase "/backups/b1/".data) ++
          '/' :: "basic/scenes.json".data := by
  have hs : ∀ p it, it ∈ listDirC9 p →
      ∃ nm, nm ≠ [] ∧ (∀ c0 ∈ nm, ¬ c0 = '/') ∧
        it.path = stripSlash p ++ '/' :: nm := by
    intro p it hit
    rw [listDirC9] at hit
    by_cases h1 : p = "/backups/b1/obs-studio".data
    · rw [if_pos h1] at hit
      rcases List.mem_cons.mp hit with rfl | hit2
      · exact ⟨"basic".data, by decide, by decide, by rw [h1]; decide⟩
      · rcases List.mem_cons.mp hit2 with rfl | hit3
        · exact ⟨"global.ini".data, by decide, by decide, by rw [h1]; decide⟩
        · cases hit3
    · rw [if_neg h1] at hit
      by_cases h2 : p = "backups/b1/obs-studio/basic".data
      · rw [if_pos h2] at hit
        rcases List.mem_cons.mp hit with rfl | hit2
        · exact ⟨"scenes.json".data, by decide, by decide, by rw [h2]; decide⟩
        · cases hit2
      · rw [if_neg h2] at hit; cases hit
  have hmem : ("basic/scenes.json".data, ([1] : Bytes)) ∈
      collectPairs listDirC9 (fun _ => ([1] : Bytes))
        (remoteBase "/backups/b1/".data) 5 [remoteBase "/backups/b1/".data] [] := by
    decide
  exact ⟨hmem,
    claim_C9_remote_rel_paths listDirC9 (fun _ => ([1] : Bytes))
      ("/backups/b1/".data) 5 hs ("basic/scenes.json".data, ([1] : Bytes)) hmem⟩

/-! ## Claim C3 — top-level orchestrators never raise

`do_backup_now`, `do_restore_local`, `do_restore_remote` and
`do_refresh_remote` each wrap their whole body in
`try: ...; return True` / `except Exception as e: err(f"...: {e}");
return False`.  The body is embedded as an `Except String`
computation over the settings (the `g_get_str`/`g_get_bool` shadow
reads) and an oracle for each fallible collaborator (walker,
filesystem, GitHub client); any exception the Python body raises is an
`.error` of the corresponding oracle or an explicit `throw` of the
body.  The orchestrator returns the boolean plus the error line it
logs — never an exception. -/

/-- The settings the orchestrators read. -/
structure BarSettings where
  destType : String
  localDir : String
  includeLogs : Bool
  includeCache : Bool
  token : String
  repo : String
  branch : String
  folder : String
  restoreLocalPath : String
  remoteSelect : String

/-- Oracles for the fallible collaborators of the orchestrators. -/
structure BarWorld where
  /-- `iter_obs_files` (may raise `ConfigNotFound`/`FileNotFoundError`). -/
  walk : Except String (List (List String × Bytes))
  /-- the `ensure_parent`/`shutil.copy2` disk writes of
  `create_local_backup_folder`. -/
  copyTree : Except String Unit
  /-- `open(src, "rb").read()` per source file. -/
  readFile : List String → Except String Bytes
  /-- `client.put_file` per repo path (may raise `GitHub upload failed`). -/
  putFile : List String → Except String Unit
  /-- `Path(path).exists()` for the local restore source. -/
  pathExists : Bool
  /-- `p.is_file() and p.suffix.lower() == ".zip"`. -/
  isZip : Bool
  /-- `_extract_zip_to_config` (filesystem + zipfile). -/
  extractZip : Except String Unit
  /-- `_restore_from_folder` (validation, collection and overwrite). -/
  restoreFolder : Except String Unit
  /-- the `client.list_dir` response during `do_refresh_remote`. -/
  listDirResp : GhHttp GhListBody
  /-- `_collect_pairs` (remote traversal + per-file downloads). -/
  remotePairs : Except String (List (List Char × Bytes))
  /-- `_restore_pairs_to_config` (snapshot + overwrite I/O). -/
  restorePairs : Except String Unit

/-- The `try` body of `do_backup_now`. -/
def doBackupNowBody (s : BarSettings) (w : BarWorld) : Except String Unit := do
  if s.destType = "local" then
    let _ ← w.walk
    w.copyTree
  else
    if s.token = "" ∨ s.repo = "" then throw "GitHub token and repo required."
    else do
      let files ← w.walk
      let _ ← files.foldlM (fun (count : Nat) rc => do
        let _ ← w.readFile rc.1
        let _ ← w.putFile rc.1
        pure (count + 1)) 0
      pure ()

/-- `do_backup_now`: the whole body under `try`, the `except` arm
logging `Backup failed: ...` and returning `False`. -/
def doBackupNow (s : BarSettings) (w : BarWorld) : Bool × Option String :=
  match doBackupNowBody s w with
  | .ok _ => (true, none)
  | .error e => (false, some ("Backup failed: " ++ e))

/-- The `try` body of `do_restore_local`. -/
def doRestoreLocalBody (s : BarSettings) (w : BarWorld) : Except String Unit :=
  if s.restoreLocalPath = "" then throw "Select a backup folder or a .zip."
  else if ¬ w.pathExists then throw "Path not found."
  else if w.isZip then w.extractZip
  else w.restoreFolder

/-- `do_restore_local`. -/
def doRestoreLocal (s : BarSettings) (w : BarWorld) : Bool × Option String :=
  match doRestoreLocalBody s w with
  | .ok _ => (true, none)
  | .error e => (false, some ("Local restore failed: " ++ e))

/-- The `try` body of `do_restore_remote`. -/
def doRestoreRemoteBody (s : BarSettings) (w : BarWorld) : Except String Unit :=
  if s.token = "" ∨ s.repo = "" ∨ s.remoteSelect = "" then
    throw "Token, repo, and selection required."
  else do
    let pairs ← w.remotePairs
    if pairs = [] then throw "No files found in the remote backup."
    else w.restorePairs

/-- `do_restore_remote`. -/
def doRestoreRemote (s : BarSettings) (w : BarWorld) : Bool × Option String :=
  match doRestoreRemoteBody s w with
  | .ok _ => (true, none)
  | .error e => (false, some ("Remote restore failed: " ++ e))

/-- The `try` body of `do_refresh_remote` (the `list_dir` call is the
fallible step; the subsequent filtering/sorting and UI updates are
total). -/
def doRefreshRemoteBody (s : BarSettings) (w : BarWorld) : Except String Unit :=
  if s.token = "" ∨ s.repo = "" then throw "GitHub token and repo required."
  else do
    let _ ← listDir w.listDirResp
    pure ()

/-- `do_refresh_remote`. -/
def doRefreshRemote (s : BarSettings) (w : BarWorld) : Bool × Option String :=
  match doRefreshRemoteBody s w with
  | .ok _ => (true, none)
  | .error e => (false, some ("Refresh failed: " ++ e))

/-- C3: for every settings combination and every behaviour of the
fallible collaborators, each top-level orchestrator returns a boolean:
`(true, no error line)` on success, and `(false, a logged descriptive
error line)` when any inner step fails — no exception propagates past
the orchestrator. -/
theorem claim_C3_orchestrators_total :
    ∀ (s : BarSettings) (w : BarWorld),
      (doBackupNow s w = (true, none) ∨
        ∃ e, doBackupNow s w = (false, some ("Backup failed: " ++ e))) ∧
      (doRestoreLocal s w = (true, none) ∨
        ∃ e, doRestoreLocal s w = (false, some ("Local restore failed: " ++ e))) ∧
      (doRestoreRemote s w = (true, none) ∨
        ∃ e, doRestoreRemote s w = (false, some ("Remote restore failed: " ++ e))) ∧
      (doRefreshRemote s w = (true, none) ∨
        ∃ e, doRefreshRemote s w = (false, some ("Refresh failed: " ++ e))) := by
  intro s w
  refine ⟨?_, ?_, ?_, ?_⟩
  · cases h : doBackupNowBody s w with
    | ok u => exact Or.inl (by rw [doBackupNow, h])
    | error e => exact Or.inr ⟨e, by rw [doBackupNow, h]⟩
  · cases h : doRestoreLocalBody s w with
    | ok u => exact Or.inl (by rw [doRestoreLocal, h])
    | error e => exact Or.inr ⟨e, by rw [doRestoreLocal, h]⟩
  · cases h : doRestoreRemoteBody s w with
    | ok u => exact Or.inl (by rw [doRestoreRemote, h])
    | error e => exact Or.inr ⟨e, by rw [doRestoreRemote, h]⟩
  · cases h : doRefreshRemoteBody s w with
    | ok u => exact Or.inl (by rw [doRefreshRemote, h])
    | error e => exact Or.inr ⟨e, by rw [doRefreshRemote, h]⟩
